import Mathlib

/-!
# Verification of the narrows-workers transcript pipeline

Shallow embedding of the pure algorithmic core of the `process-transcript`
and `ingest-transcript` workers:

* `identify-chapters.ts` — `createDefaultChapters`, `validateAndFixChapters`,
  `identifyChapters`;
* `identify-speakers.ts` — `createDefaultSpeakerData`, `identifySpeakers`;
* `identify-segments.ts` — `assignChapterToSegment`, `getTranscriptForRange`,
  clamping and per-chapter targets inside `identifySegments`;
* `ingest-to-graphiti.ts` — `chunkData`, `SKIP_GRAPHITI_TYPES` and the
  ingestion filter of `ingestSegmentsToGraphiti`;
* the `ingest-transcript` handler — `chunkBySpeaker`.

Modelling conventions:

* JavaScript strings are modelled as `List Char` (`Str`).
* JavaScript numbers (float timestamps, durations) are modelled as `ℚ`;
  `Math.round x` is modelled as `⌊x + 1/2⌋` (round half toward +∞, the
  JavaScript behaviour), `Math.max`/`Math.min` as `max`/`min`.
* `parseFloat` on the stored decimal timestamp strings is modelled by
  storing the parsed rational directly in the record fields.
* UUID generation (`uuidv4()`) is modelled by deterministic natural-number
  identifiers (the position of the generated record); no claim depends on
  the actual identifier values, only on which record an id is copied from.
* Calls to the external generation service are modelled by an explicit
  outcome parameter: a thrown/timed-out/unparsable response and a missing
  `content` field both land in the same `catch`/`!content` handling as in
  the source, and a successfully parsed JSON payload is passed through as
  data.
* JavaScript objects used as string-keyed maps are modelled as functions
  `Str → Option _`, with assignment as pointwise update.
-/

/-- JavaScript strings, modelled as lists of characters. -/
abbrev Str := List Char

/-- `Math.round`: round half toward positive infinity. -/
def jsRound (q : ℚ) : ℤ := ⌊q + 1 / 2⌋

/-- The whitespace characters recognised by `String.prototype.trim`. -/
def isJsSpace (c : Char) : Bool :=
  c ∈ [' ', '\t', '\n', '\x0b', '\x0c', '\r', ' ', ' ', ' ',
    ' ', ' ', ' ', ' ', ' ', ' ', ' ',
    ' ', ' ', ' ', ' ', ' ', ' ', ' ',
    '　', '﻿']

/-- `String.prototype.trim`: drop leading and trailing whitespace. -/
def jsTrim (s : Str) : Str :=
  ((s.dropWhile isJsSpace).reverse.dropWhile isJsSpace).reverse

/-- Does `pat` occur at the head of `s`? -/
def matchesHead : Str → Str → Bool
  | [], _ => true
  | _ :: _, [] => false
  | p :: ps, c :: cs => p = c && matchesHead ps cs

/-- Worker for `jsLastIndexOf`: scan the suffixes of the string left to
right, remembering the last position `≤ limit` where `pat` matches. -/
def jsLastIndexOfGo (pat : Str) (limit : ℕ) : Str → ℕ → ℤ → ℤ
  | suf, i, best =>
    if limit < i then best
    else
      let best2 : ℤ := if matchesHead pat suf then (i : ℤ) else best
      match suf with
      | [] => best2
      | _ :: rest => jsLastIndexOfGo pat limit rest (i + 1) best2

/-- `String.prototype.lastIndexOf(pat, limit)`: the largest position
`≤ limit` at which `pat` occurs in `s`, or `-1` if there is none. -/
def jsLastIndexOf (s : Str) (pat : Str) (limit : ℕ) : ℤ :=
  jsLastIndexOfGo pat limit s 0 (-1)

/-- Worker for `jsReplaceFirst`: index of the first occurrence of `pat`. -/
def firstMatchIdx (pat : Str) : Str → Option ℕ
  | [] => if matchesHead pat [] then some 0 else none
  | c :: cs =>
    if matchesHead pat (c :: cs) then some 0
    else (firstMatchIdx pat cs).map (· + 1)

/-- `String.prototype.replace` with a plain-string pattern: replace the
first occurrence of `pat` by `repl` (identity when `pat` does not occur). -/
def jsReplaceFirst (s pat repl : Str) : Str :=
  match firstMatchIdx pat s with
  | none => s
  | some i => s.take i ++ repl ++ s.drop (i + pat.length)

/-- Worker for `firstDedup`, carrying the set of labels already seen. -/
def firstDedupGo (seen : List Str) : List Str → List Str
  | [] => []
  | a :: l =>
    if a ∈ seen then firstDedupGo seen l
    else a :: firstDedupGo (a :: seen) l

/-- `[...new Set(xs)]`: deduplicate keeping first occurrences, in order. -/
def firstDedup (l : List Str) : List Str := firstDedupGo [] l

/-- `Math.max(...list)` for a non-empty list (`0` is junk for `[]`,
which never occurs behind the non-empty guards in the source). -/
def jsMaxQ : List ℚ → ℚ
  | [] => 0
  | x :: xs => xs.foldl max x

/-- A raw ASR transcript segment (`TranscriptSegment` in `types.ts`);
`start_time`/`end_time` hold the `parseFloat` of the stored strings. -/
structure TranscriptSegment where
  sid : Str
  start_time : ℚ
  end_time : ℚ
  transcript : Str
  speaker_label : Str
  deriving DecidableEq

/-- Chapter type enumeration from `types.ts`. -/
inductive ChapterType where
  | introduction | credits | promotion | section | other
  deriving DecidableEq

/-- A chapter (`Chapter` in `types.ts`). -/
structure Chapter where
  id : ℕ
  episodeId : ℕ
  type : ChapterType
  title : Str
  summary : Str
  episodeStartSec : ℚ
  episodeEndSec : ℚ
  deriving DecidableEq

/-- `createDefaultChapters`: the three synthesized chapters used when
chapter identification fails or produces nothing. -/
def createDefaultChapters (episodeId : ℕ) (duration : ℚ) : List Chapter :=
  let introEnd := min 60 (duration * (1 / 10))
  let outroStart := max (duration - 60) (duration * (9 / 10))
  [ { id := 0, episodeId := episodeId, type := .introduction,
      title := "Introduction".toList, summary := "Episode introduction".toList,
      episodeStartSec := 0, episodeEndSec := introEnd },
    { id := 1, episodeId := episodeId, type := .section,
      title := "Main Content".toList, summary := "Main episode content".toList,
      episodeStartSec := introEnd, episodeEndSec := outroStart },
    { id := 2, episodeId := episodeId, type := .credits,
      title := "Closing".toList,
      summary := "Episode conclusion and credits".toList,
      episodeStartSec := outroStart, episodeEndSec := duration } ]

/-- The comparator `(a, b) => a.episodeStartSec - b.episodeStartSec` used
by `chapters.sort`. -/
def chapterLE (a b : Chapter) : Prop := a.episodeStartSec ≤ b.episodeStartSec

instance : DecidableRel chapterLE := fun a b =>
  inferInstanceAs (Decidable (a.episodeStartSec ≤ b.episodeStartSec))

/-- Step 3 of the repair: `if (chapters[0].episodeStartSec > 0)
chapters[0].episodeStartSec = 0`. -/
def fixFirstChapter : List Chapter → List Chapter
  | [] => []
  | c :: cs =>
    (if 0 < c.episodeStartSec then { c with episodeStartSec := 0 } else c) :: cs

/-- Step 4 of the repair: `if (chapters[last].episodeEndSec < duration)
chapters[last].episodeEndSec = duration`. -/
def fixLastChapter (duration : ℚ) : List Chapter → List Chapter
  | [] => []
  | [c] =>
    [if c.episodeEndSec < duration then { c with episodeEndSec := duration } else c]
  | c :: c2 :: cs => c :: fixLastChapter duration (c2 :: cs)

/-- Step 5 of the repair: the forward pass
`chapters[i].episodeStartSec = chapters[i-1].episodeEndSec` for `i ≥ 1`
(the source guards the assignment with an inequality test, which has the
same net effect). -/
def chainChapterStarts : Chapter → List Chapter → List Chapter
  | _, [] => []
  | prev, c :: cs =>
    let c2 := { c with episodeStartSec := prev.episodeEndSec }
    c2 :: chainChapterStarts c2 cs

/-- Steps 2–5 of `validateAndFixChapters`: sort by start, pin the first
start to 0, pin the last end to `duration`, then chain the starts. -/
def repairedChapters (chapters : List Chapter) (duration : ℚ) : List Chapter :=
  match fixLastChapter duration (fixFirstChapter (List.insertionSort chapterLE chapters)) with
  | [] => []
  | c :: cs => c :: chainChapterStarts c cs

/-- `validateAndFixChapters` from `identify-chapters.ts`. -/
def validateAndFixChapters (chapters : List Chapter) (duration : ℚ)
    (episodeId : ℕ) : List Chapter :=
  if chapters = [] then createDefaultChapters episodeId duration
  else (repairedChapters chapters duration).filter
    (fun ch => 10 ≤ ch.episodeEndSec - ch.episodeStartSec)

/-- A chapter as proposed by the generation service
(`ChapterIdentificationResult` entries). -/
structure ProposedChapter where
  ptype : ChapterType
  title : Str
  summary : Str
  start_sec : ℚ
  end_sec : ℚ
  deriving DecidableEq

/-- Outcome of the chapter-identification service call: a thrown /
timed-out / unparsable-JSON response (`catch`), a missing `content`
field, or a parsed chapter list. -/
inductive ChaptersOutcome where
  | failure
  | noContent
  | parsed (chapters : List ProposedChapter)
  deriving DecidableEq

/-- `identifyChapters` from `identify-chapters.ts`, with the service call
replaced by its outcome. -/
def identifyChapters (outcome : ChaptersOutcome)
    (segments : List TranscriptSegment) (episodeId : ℕ) : List Chapter :=
  if segments = [] then []
  else
    let episodeDuration := jsMaxQ (segments.map (·.end_time))
    match outcome with
    | .failure => createDefaultChapters episodeId episodeDuration
    | .noContent => createDefaultChapters episodeId episodeDuration
    | .parsed chs =>
      validateAndFixChapters
        ((chs.enum).map (fun pr =>
          { id := pr.1, episodeId := episodeId, type := pr.2.ptype,
            title := pr.2.title, summary := pr.2.summary,
            episodeStartSec := pr.2.start_sec, episodeEndSec := pr.2.end_sec }))
        episodeDuration episodeId

/-- Speaker role enumeration from `types.ts`. -/
inductive SpeakerRole where
  | host | guest | unknown
  deriving DecidableEq

/-- `SpeakerInfo` from `types.ts`. -/
structure SpeakerInfo where
  name : Str
  role : SpeakerRole
  deriving DecidableEq

/-- `SpeakerData`: a JavaScript object keyed by speaker label, modelled
as a function. -/
def SpeakerData := Str → Option SpeakerInfo

/-- The empty speaker map `{}`. -/
def emptySpeakerData : SpeakerData := fun _ => none

/-- Assignment `m[k] = v` on a JavaScript object. -/
def SpeakerData.set (m : SpeakerData) (k : Str) (v : SpeakerInfo) : SpeakerData :=
  fun x => if x = k then some v else m x

/-- The default `{name, role}` for one label, as built by
`createDefaultSpeakerData`: strip the first occurrence of `spk_`, then
`Host`/`host` for suffix `0` and `Speaker {suffix}`/`unknown` otherwise. -/
def defaultSpeakerInfo (label : Str) : SpeakerInfo :=
  let speakerNum := jsReplaceFirst label "spk_".toList []
  if speakerNum = "0".toList then { name := "Host".toList, role := .host }
  else { name := "Speaker ".toList ++ speakerNum, role := .unknown }

/-- `createDefaultSpeakerData` from `identify-speakers.ts`. -/
def createDefaultSpeakerData (speakerLabels : List Str) : SpeakerData :=
  speakerLabels.foldl (fun m label => m.set label (defaultSpeakerInfo label))
    emptySpeakerData

/-- One speaker entry parsed from the service response
(`SpeakerIdentificationResult`; the free-form `reasoning` is discarded). -/
structure ProposedSpeaker where
  pid : Str
  name : Str
  role : SpeakerRole

/-- Outcome of the speaker-identification service call, as in
`ChaptersOutcome`: `failure` covers a thrown call, unparsable JSON and a
response whose `speakers` field is missing (iterating it throws inside
the same `try`), `noContent` a missing/empty `content`. -/
inductive SpeakersOutcome where
  | failure
  | noContent
  | parsed (speakers : List ProposedSpeaker)

/-- The distinct speaker labels of the transcript, in order of first
appearance (`[...new Set(segments.map((s) => s.speaker_label))]`). -/
def speakerLabelsOf (segments : List TranscriptSegment) : List Str :=
  firstDedup (segments.map (·.speaker_label))

/-- `identifySpeakers` from `identify-speakers.ts`, with the service call
replaced by its outcome: convert the parsed entries to a map, then
back-fill every label the service omitted. -/
def identifySpeakers (outcome : SpeakersOutcome)
    (segments : List TranscriptSegment) : SpeakerData :=
  let speakerLabels := speakerLabelsOf segments
  if speakerLabels = [] then emptySpeakerData
  else
    match outcome with
    | .failure => createDefaultSpeakerData speakerLabels
    | .noContent => createDefaultSpeakerData speakerLabels
    | .parsed speakers =>
      let speakerData := speakers.foldl
        (fun m sp => m.set sp.pid { name := sp.name, role := sp.role })
        emptySpeakerData
      speakerLabels.foldl
        (fun m label =>
          if m label = none then
            m.set label
              { name := "Speaker ".toList ++ jsReplaceFirst label "spk_".toList [],
                role := .unknown }
          else m)
        speakerData

/-- Segment type enumeration from `types.ts`. -/
inductive SegmentType where
  | showIntro | episodeIntro | guestIntro | credits | promotion
  | summary | analysis | conclusion | soundOnly | other
  deriving DecidableEq

/-- A content segment (`Segment` in `types.ts`); the five metric scores
are numbers copied from the service response. -/
structure Segment where
  id : ℕ
  episodeId : ℕ
  chapterId : Option ℕ
  type : SegmentType
  episodeStartSec : ℚ
  episodeEndSec : ℚ
  lucidity : ℚ
  polarity : ℚ
  arousal : ℚ
  subjectivity : ℚ
  humor : ℚ
  transcriptExcerpt : Option Str
  deriving DecidableEq

/-- A segment as proposed by the generation service
(`SegmentIdentificationResult` entries). -/
structure ProposedSegment where
  ptype : SegmentType
  start_sec : ℚ
  end_sec : ℚ
  lucidity : ℚ
  polarity : ℚ
  arousal : ℚ
  subjectivity : ℚ
  humor : ℚ

/-- The speaker-name lookup `speakerData[label]?.name || label` (a
falsy — absent or empty — name falls back to the raw label). -/
def speakerNameOf (speakerData : SpeakerData) (label : Str) : Str :=
  match speakerData label with
  | some info => if info.name = [] then label else info.name
  | none => label

/-- `getTranscriptForRange` from `identify-segments.ts`: the
speaker-annotated text of the transcript segments lying inside
`[startSec, endSec]`, joined by single spaces. -/
def getTranscriptForRange (segments : List TranscriptSegment)
    (startSec endSec : ℚ) (speakerData : SpeakerData) : Str :=
  List.intercalate " ".toList
    ((segments.filter (fun s => startSec ≤ s.start_time ∧ s.end_time ≤ endSec)).map
      (fun s => '[' :: speakerNameOf speakerData s.speaker_label ++
        ']' :: ' ' :: s.transcript))

/-- `assignChapterToSegment` from `identify-segments.ts`: the first
chapter whose range `[episodeStartSec, episodeEndSec)` contains the
midpoint of the segment.  (This helper is defined but never invoked by
`identifySegments` in the source.) -/
def assignChapterToSegment (segmentStart segmentEnd : ℚ)
    (chapters : List Chapter) : Option ℕ :=
  let midpoint := (segmentStart + segmentEnd) / 2
  match chapters.find?
    (fun ch => ch.episodeStartSec ≤ midpoint ∧ midpoint < ch.episodeEndSec) with
  | some ch => some ch.id
  | none => none

/-- The total segment target
`Math.max(20, Math.min(60, Math.round(durationHours * 40)))`. -/
def totalTargetSegments (episodeDuration : ℚ) : ℤ :=
  max 20 (min 60 (jsRound (episodeDuration / 3600 * 40)))

/-- The per-chapter segment target
`Math.max(1, Math.round((chapterDuration / episodeDuration) * total))`. -/
def chapterTargetSegments (ch : Chapter) (episodeDuration : ℚ)
    (total : ℤ) : ℤ :=
  max 1 (jsRound ((ch.episodeEndSec - ch.episodeStartSec) / episodeDuration *
    (total : ℚ)))

/-- The per-chapter conversion of the parsed service segments
(`result.segments.map` in `identifySegmentsInChapter`), carrying the
chapter index `i` and the running segment index `j` used for the
modelled UUID: bounds are clamped into the chapter, and the excerpt is
the speaker-annotated transcript of the clamped range (`null` when that
text is empty). -/
def clampSegments (ch : Chapter) (episodeId : ℕ)
    (transcriptSegments : List TranscriptSegment) (speakerData : SpeakerData)
    (i : ℕ) : ℕ → List ProposedSegment → List Segment
  | _, [] => []
  | j, p :: ps =>
    { id := Nat.pair i j, episodeId := episodeId,
      chapterId := some ch.id, type := p.ptype,
      episodeStartSec := max ch.episodeStartSec p.start_sec,
      episodeEndSec := min ch.episodeEndSec p.end_sec,
      lucidity := p.lucidity, polarity := p.polarity,
      arousal := p.arousal, subjectivity := p.subjectivity,
      humor := p.humor,
      transcriptExcerpt :=
        if getTranscriptForRange transcriptSegments
            (max ch.episodeStartSec p.start_sec)
            (min ch.episodeEndSec p.end_sec) speakerData = [] then none
        else some (getTranscriptForRange transcriptSegments
          (max ch.episodeStartSec p.start_sec)
          (min ch.episodeEndSec p.end_sec) speakerData) } ::
      clampSegments ch episodeId transcriptSegments speakerData i (j + 1) ps

/-- The chapter loop of `identifySegments`, with the loop position `i`
made explicit: each chapter's proposals (requested with that chapter's
proportional target) are clamped and appended. -/
def identifySegmentsGo (transcriptSegments : List TranscriptSegment)
    (speakerData : SpeakerData) (episodeId : ℕ)
    (proposals : ℕ → ℤ → List ProposedSegment) (episodeDuration : ℚ) :
    ℕ → List Chapter → List Segment
  | _, [] => []
  | i, ch :: rest =>
    clampSegments ch episodeId transcriptSegments speakerData i 0
      (proposals i (chapterTargetSegments ch episodeDuration
        (totalTargetSegments episodeDuration))) ++
      identifySegmentsGo transcriptSegments speakerData episodeId proposals
        episodeDuration (i + 1) rest

/-- `identifySegments` from `identify-segments.ts`, with the per-chapter
service call replaced by an oracle `proposals` receiving the chapter
index and the requested per-chapter target (a failed or empty per-chapter
call is the empty proposal list).  `chapterId` is the id of the chapter
whose loop iteration produced the segment. -/
def identifySegments (transcriptSegments : List TranscriptSegment)
    (speakerData : SpeakerData) (chapters : List Chapter)
    (proposals : ℕ → ℤ → List ProposedSegment) (episodeId : ℕ) : List Segment :=
  if transcriptSegments = [] ∨ chapters = [] then []
  else
    identifySegmentsGo transcriptSegments speakerData episodeId proposals
      (jsMaxQ (transcriptSegments.map (·.end_time))) 0 chapters

/-- `SKIP_GRAPHITI_TYPES` from `ingest-to-graphiti.ts`. -/
def SKIP_GRAPHITI_TYPES : List SegmentType := [.promotion, .credits, .soundOnly]

/-- The `segmentsToIngest` filter at the head of
`ingestSegmentsToGraphiti`: exactly the segments for which the submission
loop issues Graphiti calls. -/
def segmentsToIngest (segments : List Segment) : List Segment :=
  segments.filter (fun seg => ¬ seg.type ∈ SKIP_GRAPHITI_TYPES)

/-- The segment-persistence loop of the `process-transcript` handler
(`for (const segment of identifiedSegments) await upsertSegment(segment)`):
every identified segment is upserted, in order. -/
def upsertedSegments (identifiedSegments : List Segment) : List Segment :=
  identifiedSegments

/-- `MAX_DATA_CHARS` from `ingest-to-graphiti.ts`. -/
def MAX_DATA_CHARS : ℕ := 5000

/-- Length of a trimmed string never exceeds the original. -/
theorem jsTrim_length_le (s : Str) : (jsTrim s).length ≤ s.length := by
  unfold jsTrim
  calc ((s.dropWhile isJsSpace).reverse.dropWhile isJsSpace).reverse.length
      = ((s.dropWhile isJsSpace).reverse.dropWhile isJsSpace).length :=
        List.length_reverse _
    _ ≤ (s.dropWhile isJsSpace).reverse.length :=
        (List.dropWhile_sublist _).length_le
    _ = (s.dropWhile isJsSpace).length := List.length_reverse _
    _ ≤ s.length := (List.dropWhile_sublist _).length_le

/-- Break-point selection inside the `chunkData` loop.  The comparison in
the source is `index > MAX_DATA_CHARS * 0.7`; `5000 * 0.7` is exactly
`3500` in IEEE doubles, so the threshold is the integer `3500`. -/
def computeBreakPoint (remaining : Str) : ℕ :=
  if 3500 < jsLastIndexOf remaining ('.' :: ' ' :: []) MAX_DATA_CHARS then
    (jsLastIndexOf remaining ('.' :: ' ' :: []) MAX_DATA_CHARS + 1).toNat
  else if 3500 < jsLastIndexOf remaining [' '] MAX_DATA_CHARS then
    (jsLastIndexOf remaining [' '] MAX_DATA_CHARS).toNat
  else MAX_DATA_CHARS

/-- The chosen break point is positive (so the loop always consumes). -/
theorem computeBreakPoint_pos (remaining : Str) :
    1 ≤ computeBreakPoint remaining := by
  unfold computeBreakPoint
  split
  · next h => omega
  · split
    · next h => omega
    · simp [MAX_DATA_CHARS]


/-- The `while` loop of `chunkData`: take a chunk up to the break point,
trim it, and continue on the trimmed remainder. -/
def chunkLoop (remaining : Str) : List Str :=
  if remaining = [] then []
  else if remaining.length ≤ MAX_DATA_CHARS then [remaining]
  else
    jsTrim (remaining.take (computeBreakPoint remaining)) ::
      chunkLoop (jsTrim (remaining.drop (computeBreakPoint remaining)))
termination_by remaining.length
decreasing_by
  next _ h1 =>
    have hb := computeBreakPoint_pos remaining
    calc (jsTrim (remaining.drop (computeBreakPoint remaining))).length
        ≤ (remaining.drop (computeBreakPoint remaining)).length :=
          jsTrim_length_le _
      _ = remaining.length - computeBreakPoint remaining := by
          exact List.length_drop _ _
      _ < remaining.length := by omega

/-- `chunkData` from `ingest-to-graphiti.ts`. -/
def chunkData (data : Str) : List Str :=
  if data.length ≤ MAX_DATA_CHARS then [data] else chunkLoop data

/-- `MAX_CHUNK_CHARS` from the `ingest-transcript` handler. -/
def MAX_CHUNK_CHARS : ℕ := 4000

/-- The formatted text of one segment, `"{speaker_label}: {transcript}"`. -/
def segmentTextOf (seg : TranscriptSegment) : Str :=
  seg.speaker_label ++ ':' :: ' ' :: seg.transcript

/-- A speaker-homogeneous block (`TranscriptChunk` in the
`ingest-transcript` handler). -/
structure TranscriptChunk where
  speakerLabel : Str
  lines : List TranscriptSegment
  startTime : ℚ
  endTime : ℚ
  text : Str
  deriving DecidableEq

/-- The freshly started block for a segment. -/
def newChunkOf (seg : TranscriptSegment) : TranscriptChunk :=
  { speakerLabel := seg.speaker_label, lines := [seg],
    startTime := seg.start_time, endTime := seg.end_time,
    text := segmentTextOf seg }

/-- The loop body of `chunkBySpeaker`, carrying the current open block:
start a new block when the speaker changes or the budget test
`currentChunk.text.length + segmentSize > MAX_CHUNK_CHARS` fires,
otherwise append the segment (joined by a newline). -/
def chunkBySpeakerGo : TranscriptChunk → List TranscriptSegment →
    List TranscriptChunk
  | cur, [] => [cur]
  | cur, seg :: rest =>
    if cur.speakerLabel ≠ seg.speaker_label ∨
        MAX_CHUNK_CHARS < cur.text.length + (segmentTextOf seg).length then
      cur :: chunkBySpeakerGo (newChunkOf seg) rest
    else
      chunkBySpeakerGo
        { cur with
            lines := cur.lines ++ [seg], endTime := seg.end_time,
            text := cur.text ++ '\n' :: segmentTextOf seg } rest

/-- `chunkBySpeaker` from the `ingest-transcript` handler. -/
def chunkBySpeaker : List TranscriptSegment → List TranscriptChunk
  | [] => []
  | seg :: rest => chunkBySpeakerGo (newChunkOf seg) rest

example :
    (validateAndFixChapters
      [ { id := 0, episodeId := 0, type := .section, title := [], summary := [],
          episodeStartSec := 0, episodeEndSec := 50 },
        { id := 1, episodeId := 0, type := .section, title := [], summary := [],
          episodeStartSec := 40, episodeEndSec := 100 },
        { id := 2, episodeId := 0, type := .section, title := [], summary := [],
          episodeStartSec := 150, episodeEndSec := 200 } ] 200 0).map
      (fun c => (c.episodeStartSec, c.episodeEndSec)) =
    [(0, 50), (50, 100), (100, 200)] := by
  rw [validateAndFixChapters, if_neg (by simp)]
  norm_num [repairedChapters, fixFirstChapter,
    fixLastChapter, chainChapterStarts, List.insertionSort, List.orderedInsert,
    List.filter, chapterLE]


/-! ## String helper lemmas -/

/-- A string consisting only of JavaScript whitespace. -/
def SpacePadded (s : Str) : Prop := ∀ c ∈ s, isJsSpace c = true

instance (s : Str) : Decidable (SpacePadded s) :=
  inferInstanceAs (Decidable (∀ c ∈ s, isJsSpace c = true))

theorem spacePadded_nil : SpacePadded [] := by intro c hc; cases hc

theorem spacePadded_append {a b : Str} (ha : SpacePadded a)
    (hb : SpacePadded b) : SpacePadded (a ++ b) := by
  intro c hc
  rcases List.mem_append.mp hc with h | h
  · exact ha c h
  · exact hb c h

/-- `jsTrim` only removes whitespace at the two ends: the original string
is whitespace, then the trimmed string, then whitespace. -/
theorem jsTrim_decomposition (s : Str) :
    ∃ pre post : Str, SpacePadded pre ∧ SpacePadded post ∧
      s = pre ++ jsTrim s ++ post := by
  refine ⟨s.takeWhile isJsSpace,
    ((s.dropWhile isJsSpace).reverse.takeWhile isJsSpace).reverse, ?_, ?_, ?_⟩
  · intro c hc
    exact List.mem_takeWhile_imp hc
  · intro c hc
    exact List.mem_takeWhile_imp (List.mem_reverse.mp hc)
  · unfold jsTrim
    have h1 : s = s.takeWhile isJsSpace ++ s.dropWhile isJsSpace :=
      (List.takeWhile_append_dropWhile ..).symm
    have h2 : (s.dropWhile isJsSpace).reverse =
        (s.dropWhile isJsSpace).reverse.takeWhile isJsSpace ++
        (s.dropWhile isJsSpace).reverse.dropWhile isJsSpace :=
      (List.takeWhile_append_dropWhile ..).symm
    have h3 : s.dropWhile isJsSpace =
        ((s.dropWhile isJsSpace).reverse.dropWhile isJsSpace).reverse ++
        ((s.dropWhile isJsSpace).reverse.takeWhile isJsSpace).reverse := by
      conv_lhs => rw [← List.reverse_reverse (s.dropWhile isJsSpace), h2]
      rw [List.reverse_append]
    conv_lhs => rw [h1, h3]
    rw [List.append_assoc]

/-- One stopping unfold of the scanner: past the limit it returns the
accumulator. -/
theorem jsLastIndexOfGo_stop (pat : Str) (limit : ℕ) (suf : Str) (i : ℕ)
    (best : ℤ) (h : limit < i) :
    jsLastIndexOfGo pat limit suf i best = best := by
  rw [jsLastIndexOfGo]
  simp [h]

/-- Skipping a block of characters that cannot start a match: scanning
`replicate n c ++ t` from `i` is scanning `t` from `i + n`. -/
theorem jsLastIndexOfGo_skip {p c : Char} (ps : Str) (h : p ≠ c)
    (limit : ℕ) (t : Str) :
    ∀ (n i : ℕ) (best : ℤ),
      jsLastIndexOfGo (p :: ps) limit (List.replicate n c ++ t) i best =
      jsLastIndexOfGo (p :: ps) limit t (i + n) best := by
  intro n
  induction n with
  | zero => intro i best; simp
  | succ n ih =>
    intro i best
    by_cases hi : limit < i
    · rw [jsLastIndexOfGo_stop _ _ _ _ _ hi,
        jsLastIndexOfGo_stop _ _ _ _ _ (by omega)]
    · rw [List.replicate_succ, List.cons_append, jsLastIndexOfGo]
      simp only [hi, if_false]
      have hm : matchesHead (p :: ps) (c :: (List.replicate n c ++ t)) = false := by
        simp [matchesHead, h]
      rw [hm]
      simp only [Bool.false_eq_true, if_false]
      rw [ih (i + 1) best]
      congr 1
      omega

/-- The scanner never reports a position above the limit. -/
theorem jsLastIndexOfGo_le (pat : Str) (limit : ℕ) :
    ∀ (suf : Str) (i : ℕ) (best : ℤ), best ≤ (limit : ℤ) →
      jsLastIndexOfGo pat limit suf i best ≤ (limit : ℤ) := by
  intro suf
  induction suf with
  | nil =>
    intro i best hb
    rw [jsLastIndexOfGo]
    by_cases hi : limit < i
    · simp [hi, hb]
    · simp only [hi, if_false]
      split
      · exact_mod_cast Nat.le_of_not_lt hi
      · exact hb
  | cons a rest ih =>
    intro i best hb
    rw [jsLastIndexOfGo]
    by_cases hi : limit < i
    · simp [hi, hb]
    · simp only [hi, if_false]
      apply ih
      split
      · exact_mod_cast Nat.le_of_not_lt hi
      · exact hb

/-- `lastIndexOf` never exceeds the search limit. -/
theorem jsLastIndexOf_le (s pat : Str) (limit : ℕ) :
    jsLastIndexOf s pat limit ≤ (limit : ℤ) :=
  jsLastIndexOfGo_le pat limit s 0 (-1) (by omega)

/-- The break point chosen by `chunkData` is at most `MAX_DATA_CHARS + 1`
(one more than the budget, reached when a `". "` starts exactly at index
`MAX_DATA_CHARS`). -/
theorem computeBreakPoint_le (remaining : Str) :
    computeBreakPoint remaining ≤ MAX_DATA_CHARS + 1 := by
  unfold computeBreakPoint
  have h1 := jsLastIndexOf_le remaining ('.' :: ' ' :: []) MAX_DATA_CHARS
  have h2 := jsLastIndexOf_le remaining [' '] MAX_DATA_CHARS
  split
  · omega
  · split
    · omega
    · omega

/-- `Reassembles chunks s`: the string `s` is the chunks in order,
interleaved only with whitespace (what trimming removed at cut points). -/
inductive Reassembles : List Str → Str → Prop
  | nil (w : Str) (hw : SpacePadded w) : Reassembles [] w
  | cons (c : Str) (cs : List Str) (w rest : Str) (hw : SpacePadded w)
      (h : Reassembles cs rest) : Reassembles (c :: cs) (w ++ (c ++ rest))

theorem Reassembles.single (s : Str) : Reassembles [s] s := by
  have h := Reassembles.cons s [] [] [] spacePadded_nil
    (Reassembles.nil [] spacePadded_nil)
  simpa using h

theorem Reassembles.of_eq {cs : List Str} {s t : Str} (h : Reassembles cs s)
    (he : s = t) : Reassembles cs t := he ▸ h

theorem Reassembles.pad_left {cs : List Str} {s : Str} (w : Str)
    (hw : SpacePadded w) (h : Reassembles cs s) : Reassembles cs (w ++ s) := by
  cases h with
  | nil w2 hw2 => exact Reassembles.nil _ (spacePadded_append hw hw2)
  | cons c cs w2 rest hw2 h2 =>
    have h3 := Reassembles.cons c cs (w ++ w2) rest
      (spacePadded_append hw hw2) h2
    simpa [List.append_assoc] using h3

theorem Reassembles.pad_right {cs : List Str} {s : Str} (w : Str)
    (hw : SpacePadded w) (h : Reassembles cs s) : Reassembles cs (s ++ w) := by
  induction h with
  | nil w2 hw2 => exact Reassembles.nil (w2 ++ w) (spacePadded_append hw2 hw)
  | cons c cs w2 rest hw2 h2 ih =>
    have h3 := Reassembles.cons c cs w2 (rest ++ w) hw2 ih
    simpa [List.append_assoc] using h3

/-- Every chunk emitted by the `chunkData` loop fits in
`MAX_DATA_CHARS + 1` characters. -/
theorem chunkLoop_length_le :
    ∀ (n : ℕ) (r : Str), r.length ≤ n →
      ∀ c ∈ chunkLoop r, c.length ≤ MAX_DATA_CHARS + 1 := by
  intro n
  induction n with
  | zero =>
    intro r hr c hc
    rw [chunkLoop] at hc
    have hr0 : r = [] := List.eq_nil_of_length_eq_zero (by omega)
    simp [hr0] at hc
  | succ n ih =>
    intro r hr c hc
    rw [chunkLoop] at hc
    by_cases h0 : r = []
    · simp [h0] at hc
    · rw [if_neg h0] at hc
      by_cases h1 : r.length ≤ MAX_DATA_CHARS
      · rw [if_pos h1] at hc
        rcases List.mem_singleton.mp hc with rfl
        omega
      · rw [if_neg h1] at hc
        rcases List.mem_cons.mp hc with rfl | hc2
        · calc (jsTrim (r.take (computeBreakPoint r))).length
              ≤ (r.take (computeBreakPoint r)).length := jsTrim_length_le _
            _ ≤ computeBreakPoint r := by
                rw [List.length_take]; omega
            _ ≤ MAX_DATA_CHARS + 1 := computeBreakPoint_le r
        · refine ih (jsTrim (r.drop (computeBreakPoint r))) ?_ c hc2
          have hb := computeBreakPoint_pos r
          calc (jsTrim (r.drop (computeBreakPoint r))).length
              ≤ (r.drop (computeBreakPoint r)).length := jsTrim_length_le _
            _ = r.length - computeBreakPoint r := List.length_drop _ _
            _ ≤ n := by omega

/-- The `chunkData` loop reassembles its input up to trimmed whitespace. -/
theorem chunkLoop_reassembles :
    ∀ (n : ℕ) (r : Str), r.length ≤ n → Reassembles (chunkLoop r) r := by
  intro n
  induction n with
  | zero =>
    intro r hr
    have hr0 : r = [] := List.eq_nil_of_length_eq_zero (by omega)
    subst hr0
    rw [chunkLoop]
    simp only [if_pos rfl]
    exact Reassembles.nil [] spacePadded_nil
  | succ n ih =>
    intro r hr
    rw [chunkLoop]
    by_cases h0 : r = []
    · simp only [h0, if_pos rfl]
      exact Reassembles.nil [] spacePadded_nil
    · rw [if_neg h0]
      by_cases h1 : r.length ≤ MAX_DATA_CHARS
      · rw [if_pos h1]
        exact Reassembles.single r
      · rw [if_neg h1]
        have hb := computeBreakPoint_pos r
        obtain ⟨pre1, post1, hpre1, hpost1, hdec1⟩ :=
          jsTrim_decomposition (r.take (computeBreakPoint r))
        have hnext : Reassembles
            (chunkLoop (jsTrim (r.drop (computeBreakPoint r))))
            (jsTrim (r.drop (computeBreakPoint r))) := by
          refine ih _ ?_
          calc (jsTrim (r.drop (computeBreakPoint r))).length
              ≤ (r.drop (computeBreakPoint r)).length := jsTrim_length_le _
            _ = r.length - computeBreakPoint r := List.length_drop _ _
            _ ≤ n := by omega
        obtain ⟨pre2, post2, hpre2, hpost2, hdec2⟩ :=
          jsTrim_decomposition (r.drop (computeBreakPoint r))
        have hdrop : Reassembles
            (chunkLoop (jsTrim (r.drop (computeBreakPoint r))))
            (r.drop (computeBreakPoint r)) := by
          have base := Reassembles.pad_right post2 hpost2
            (Reassembles.pad_left pre2 hpre2 hnext)
          exact base.of_eq hdec2.symm
        have hglue : Reassembles
            (jsTrim (r.take (computeBreakPoint r)) ::
              chunkLoop (jsTrim (r.drop (computeBreakPoint r))))
            (pre1 ++ (jsTrim (r.take (computeBreakPoint r)) ++
              (post1 ++ r.drop (computeBreakPoint r)))) :=
          Reassembles.cons _ _ _ _ hpre1
            (Reassembles.pad_left post1 hpost1 hdrop)
        have hr2 : r = pre1 ++ (jsTrim (r.take (computeBreakPoint r)) ++
            (post1 ++ r.drop (computeBreakPoint r))) := by
          conv_lhs => rw [← List.take_append_drop (computeBreakPoint r) r, hdec1]
          simp [List.append_assoc]
        exact hglue.of_eq hr2.symm

/-- `dropWhile` is the identity when nothing satisfies the predicate. -/
theorem dropWhile_eq_self_of_all {p : Char → Bool} {s : Str}
    (h : ∀ c ∈ s, p c = false) : s.dropWhile p = s := by
  cases s with
  | nil => rfl
  | cons a t =>
    rw [List.dropWhile_cons, if_neg]
    simp [h a (List.mem_cons_self a t)]

/-- Trimming a string with no whitespace at all is the identity. -/
theorem jsTrim_eq_self {s : Str} (h : ∀ c ∈ s, isJsSpace c = false) :
    jsTrim s = s := by
  unfold jsTrim
  rw [dropWhile_eq_self_of_all h,
    dropWhile_eq_self_of_all (fun c hc => h c (List.mem_reverse.mp hc)),
    List.reverse_reverse]

/-- The concrete chunking input for the budget counterexample: 5000 `a`s
followed by `". b"`, so the sentence boundary `". "` starts exactly at
index `MAX_DATA_CHARS`. -/
def dataC2 : Str := List.replicate MAX_DATA_CHARS 'a' ++ '.' :: ' ' :: ['b']

theorem dataC2_length : dataC2.length = 5003 := by
  rw [dataC2, List.length_append, List.length_replicate]
  rfl

theorem dataC2_period_idx :
    jsLastIndexOf dataC2 ('.' :: ' ' :: []) MAX_DATA_CHARS = 5000 := by
  unfold dataC2 jsLastIndexOf
  rw [jsLastIndexOfGo_skip _ (by decide)]
  decide

theorem dataC2_break : computeBreakPoint dataC2 = 5001 := by
  unfold computeBreakPoint
  rw [dataC2_period_idx, if_pos (show (3500 : ℤ) < 5000 by decide)]
  decide

theorem dataC2_take :
    dataC2.take 5001 = List.replicate MAX_DATA_CHARS 'a' ++ ['.'] := by
  unfold dataC2
  rw [List.take_append_eq_append_take, List.length_replicate,
    List.take_of_length_le (by rw [List.length_replicate]; decide)]
  congr 1

theorem dataC2_chunk_no_space :
    ∀ c ∈ List.replicate MAX_DATA_CHARS 'a' ++ ['.'], isJsSpace c = false := by
  intro c hc
  rcases List.mem_append.mp hc with h | h
  · rw [List.eq_of_mem_replicate h]; decide
  · rcases List.mem_singleton.mp h with rfl; decide

theorem dataC2_chunkData_eq :
    chunkData dataC2 = jsTrim (dataC2.take 5001) ::
      chunkLoop (jsTrim (dataC2.drop 5001)) := by
  have hne : dataC2 ≠ [] := by
    intro h
    have h2 := dataC2_length
    rw [h] at h2
    exact absurd h2 (by decide)
  have hgt : ¬ dataC2.length ≤ MAX_DATA_CHARS := by
    rw [dataC2_length]; decide
  rw [chunkData, if_neg hgt, chunkLoop, if_neg hne, if_neg hgt, dataC2_break]

/-- **C2** (amended).  For every input and the configured
`MAX_DATA_CHARS = 5000`: every chunk emitted by `chunkData` has length at
most `MAX_DATA_CHARS + 1` (not `MAX_DATA_CHARS`: when a `". "` begins
exactly at index `MAX_DATA_CHARS` the break point is `MAX_DATA_CHARS + 1`),
and the concatenation of the chunks reconstructs the input with nothing
dropped or duplicated beyond whitespace trimmed at the cut points. -/
theorem chunkData_bound_and_reassembly (data : Str) :
    (∀ c ∈ chunkData data, c.length ≤ MAX_DATA_CHARS + 1) ∧
    Reassembles (chunkData data) data := by
  constructor
  · intro c hc
    rw [chunkData] at hc
    split at hc
    · rcases List.mem_singleton.mp hc with rfl
      next h => omega
    · exact chunkLoop_length_le data.length data le_rfl c hc
  · rw [chunkData]
    split
    · exact Reassembles.single data
    · exact chunkLoop_reassembles data.length data le_rfl

/-- Witness for **C2**: a concrete short input evaluated through
`chunkData`. -/
theorem chunkData_bound_and_reassembly_witness :
    "ab".toList ∈ chunkData "ab".toList ∧
    ("ab".toList : Str).length ≤ MAX_DATA_CHARS + 1 ∧
    Reassembles (chunkData "ab".toList) "ab".toList :=
  ⟨by decide, (chunkData_bound_and_reassembly "ab".toList).1 _ (by decide),
    (chunkData_bound_and_reassembly "ab".toList).2⟩

/-- Counterexample for **C2** as stated: on `dataC2` (where a `". "`
begins exactly at index `MAX_DATA_CHARS`) the first chunk has 5001
characters, exceeding `MAX_DATA_CHARS`. -/
theorem chunkData_budget_counterexample :
    ¬ (∀ c ∈ chunkData dataC2, c.length ≤ MAX_DATA_CHARS) := by
  intro h
  have hmem : jsTrim (dataC2.take 5001) ∈ chunkData dataC2 := by
    rw [dataC2_chunkData_eq]
    exact List.mem_cons_self _ _
  have hlen : (jsTrim (dataC2.take 5001)).length = 5001 := by
    rw [dataC2_take, jsTrim_eq_self dataC2_chunk_no_space,
      List.length_append, List.length_replicate]
    rfl
  have h2 := h _ hmem
  rw [hlen] at h2
  exact absurd h2 (by decide)

/-- One scanner step on a matching head position. -/
theorem jsLastIndexOfGo_step_match (pat : Str) (limit : ℕ) (c : Char)
    (rest : Str) (i : ℕ) (best : ℤ) (hi : ¬ limit < i)
    (hm : matchesHead pat (c :: rest) = true) :
    jsLastIndexOfGo pat limit (c :: rest) i best =
    jsLastIndexOfGo pat limit rest (i + 1) (i : ℤ) := by
  rw [jsLastIndexOfGo]
  simp [hi, hm]

/-- One scanner step on a non-matching head position. -/
theorem jsLastIndexOfGo_step_nomatch (pat : Str) (limit : ℕ) (c : Char)
    (rest : Str) (i : ℕ) (best : ℤ) (hi : ¬ limit < i)
    (hm : matchesHead pat (c :: rest) = false) :
    jsLastIndexOfGo pat limit (c :: rest) i best =
    jsLastIndexOfGo pat limit rest (i + 1) best := by
  rw [jsLastIndexOfGo]
  simp [hi, hm]

/-- **C9**.  For text longer than `MAX_DATA_CHARS` whose last `". "` at
or before `MAX_DATA_CHARS` sits at a position `p` beyond the 70%
threshold (3500), `chunkData` cuts the first chunk at that sentence
boundary inclusive of the period — the first chunk is the trimmed first
`p + 1` characters — rather than hard at `MAX_DATA_CHARS`. -/
theorem chunkData_sentence_break (data : Str) (p : ℕ)
    (hlen : MAX_DATA_CHARS < data.length)
    (hp : jsLastIndexOf data ('.' :: ' ' :: []) MAX_DATA_CHARS = (p : ℤ))
    (hp7 : 3500 < (p : ℤ)) :
    chunkData data = jsTrim (data.take (p + 1)) ::
      chunkLoop (jsTrim (data.drop (p + 1))) := by
  have hne : data ≠ [] := by
    intro h
    rw [h] at hlen
    exact absurd hlen (by decide)
  have hgt : ¬ data.length ≤ MAX_DATA_CHARS := by omega
  have hbp : computeBreakPoint data = p + 1 := by
    unfold computeBreakPoint
    rw [hp, if_pos hp7]
    omega
  rw [chunkData, if_neg hgt, chunkLoop, if_neg hne, if_neg hgt, hbp]

/-- The concrete input for the **C9** witness: a `". "` at index 4000
(80% of `MAX_DATA_CHARS`) inside a 5502-character text with no other
space. -/
def dataC9 : Str :=
  List.replicate 4000 'a' ++ '.' :: ' ' :: List.replicate 1500 'b'

theorem dataC9_length : dataC9.length = 5502 := by
  rw [dataC9, List.length_append, List.length_replicate, List.length_cons,
    List.length_cons, List.length_replicate]

theorem dataC9_period_idx :
    jsLastIndexOf dataC9 ('.' :: ' ' :: []) MAX_DATA_CHARS = (4000 : ℤ) := by
  unfold dataC9 jsLastIndexOf
  rw [jsLastIndexOfGo_skip _ (by decide)]
  rw [jsLastIndexOfGo_step_match _ _ _ _ _ _ (by decide)
    (by simp [matchesHead])]
  rw [jsLastIndexOfGo_step_nomatch _ _ _ _ _ _ (by decide)
    (by simp [matchesHead])]
  rw [← List.append_nil (List.replicate 1500 'b'),
    jsLastIndexOfGo_skip _ (by decide)]
  rw [jsLastIndexOfGo_stop _ _ _ _ _ (by decide)]
  decide

/-- Witness for **C9** at `dataC9`: the hypotheses hold and the first
chunk is the trimmed 4001-character cut ending at the period. -/
theorem chunkData_sentence_break_witness :
    MAX_DATA_CHARS < dataC9.length ∧
    jsLastIndexOf dataC9 ('.' :: ' ' :: []) MAX_DATA_CHARS = ((4000 : ℕ) : ℤ) ∧
    3500 < ((4000 : ℕ) : ℤ) ∧
    chunkData dataC9 = jsTrim (dataC9.take 4001) ::
      chunkLoop (jsTrim (dataC9.drop 4001)) := by
  have h1 : MAX_DATA_CHARS < dataC9.length := by
    rw [dataC9_length]; decide
  have h2 : jsLastIndexOf dataC9 ('.' :: ' ' :: []) MAX_DATA_CHARS =
      ((4000 : ℕ) : ℤ) := by
    rw [dataC9_period_idx]; norm_num
  have h3 : (3500 : ℤ) < ((4000 : ℕ) : ℤ) := by norm_num
  exact ⟨h1, h2, h3, chunkData_sentence_break dataC9 4000 h1 h2 h3⟩

/-! ## Chapter repair lemmas -/

/-- Adjacency after repair: a chapter starts where the previous ended. -/
def chapterAdj (a b : Chapter) : Prop :=
  b.episodeStartSec = a.episodeEndSec

instance : DecidableRel chapterAdj := fun a b =>
  inferInstanceAs (Decidable (b.episodeStartSec = a.episodeEndSec))

/-- Comparison of chapter end times. -/
def chapterEndLE (a b : Chapter) : Prop :=
  a.episodeEndSec ≤ b.episodeEndSec

instance : DecidableRel chapterEndLE := fun a b =>
  inferInstanceAs (Decidable (a.episodeEndSec ≤ b.episodeEndSec))

instance : IsTrans Chapter chapterLE :=
  ⟨fun _ _ _ hab hbc => le_trans hab hbc⟩

/-- The chained tail keeps every chapter's end time. -/
theorem chainChapterStarts_map_end :
    ∀ (cs : List Chapter) (prev : Chapter),
      (chainChapterStarts prev cs).map Chapter.episodeEndSec =
      cs.map Chapter.episodeEndSec := by
  intro cs
  induction cs with
  | nil => intro prev; rfl
  | cons c cs ih =>
    intro prev
    rw [chainChapterStarts]
    simp only [List.map_cons]
    rw [ih]

/-- The forward pass makes every chapter start at its predecessor's end. -/
theorem chainChapterStarts_chain :
    ∀ (cs : List Chapter) (prev : Chapter),
      List.Chain chapterAdj prev (chainChapterStarts prev cs) := by
  intro cs
  induction cs with
  | nil => intro prev; exact List.Chain.nil
  | cons c cs ih =>
    intro prev
    rw [chainChapterStarts]
    exact List.Chain.cons rfl (ih _)

/-- If end times are nondecreasing and the seed chapter is well-formed,
the chained list is nondecreasing in start times. -/
theorem chainChapterStarts_chain_le :
    ∀ (cs : List Chapter) (prev : Chapter),
      List.Chain chapterEndLE prev cs →
      prev.episodeStartSec ≤ prev.episodeEndSec →
      List.Chain chapterLE prev (chainChapterStarts prev cs) := by
  intro cs
  induction cs with
  | nil => intro prev _ _; exact List.Chain.nil
  | cons c cs ih =>
    intro prev hends hwf
    rw [chainChapterStarts]
    rcases List.chain_cons.mp hends with ⟨hpc, hrest⟩
    refine List.Chain.cons hwf ?_
    refine ih _ ?_ ?_
    · cases cs with
      | nil => exact List.Chain.nil
      | cons c2 cs2 =>
        rcases List.chain_cons.mp hrest with ⟨hcc2, hrest2⟩
        exact List.chain_cons.mpr ⟨hcc2, hrest2⟩
    · exact hpc

/-- `fixLastChapter` keeps every start time. -/
theorem fixLastChapter_map_start (d : ℚ) :
    ∀ l : List Chapter,
      (fixLastChapter d l).map Chapter.episodeStartSec =
      l.map Chapter.episodeStartSec := by
  intro l
  induction l with
  | nil => rfl
  | cons c tail ih =>
    cases tail with
    | nil =>
      rw [fixLastChapter]
      split <;> rfl
    | cons c2 cs =>
      rw [fixLastChapter]
      simp only [List.map_cons]
      rw [ih]
      rfl

/-- `fixLastChapter` keeps the list length. -/
theorem fixLastChapter_length (d : ℚ) :
    ∀ l : List Chapter, (fixLastChapter d l).length = l.length := by
  intro l
  induction l with
  | nil => rfl
  | cons c tail ih =>
    cases tail with
    | nil =>
      rw [fixLastChapter]
      split <;> rfl
    | cons c2 cs =>
      rw [fixLastChapter]
      simp only [List.length_cons]
      rw [ih]
      rfl

/-- When every end is at most `duration`, the repaired last end is
exactly `duration`. -/
theorem fixLastChapter_last_end (d : ℚ) :
    ∀ l : List Chapter, l ≠ [] → (∀ c ∈ l, c.episodeEndSec ≤ d) →
      (fixLastChapter d l).getLast?.map Chapter.episodeEndSec = some d := by
  intro l
  induction l with
  | nil => intro h; exact absurd rfl h
  | cons c tail ih =>
    intro _ hle
    cases tail with
    | nil =>
      rw [fixLastChapter]
      split
      · rfl
      · next h2 =>
        have h3 := hle c (List.mem_cons_self c [])
        have h4 : c.episodeEndSec = d := le_antisymm h3 (not_lt.mp h2)
        simp [List.getLast?, h4]
    | cons c2 cs =>
      rw [fixLastChapter]
      have hne2 : fixLastChapter d (c2 :: cs) ≠ [] := by
        intro h
        have := fixLastChapter_length d (c2 :: cs)
        rw [h] at this
        simp at this
      obtain ⟨x, xs, hxx⟩ := List.exists_cons_of_ne_nil hne2
      rw [hxx, List.getLast?_cons_cons, ← hxx]
      exact ih (by simp) (fun a ha => hle a (List.mem_cons_of_mem c ha))

/-- Shape of `fixLastChapter` on a non-empty list: the head keeps its
start, and its end can only grow. -/
theorem fixLastChapter_head (d : ℚ) (c2 : Chapter) (cs : List Chapter) :
    ∃ x xs, fixLastChapter d (c2 :: cs) = x :: xs ∧
      x.episodeStartSec = c2.episodeStartSec ∧
      c2.episodeEndSec ≤ x.episodeEndSec := by
  cases cs with
  | nil =>
    rw [fixLastChapter]
    split
    · next h => exact ⟨_, [], rfl, rfl, le_of_lt h⟩
    · exact ⟨c2, [], rfl, rfl, le_refl _⟩
  | cons c3 cs3 =>
    rw [fixLastChapter]
    exact ⟨c2, _, rfl, rfl, le_refl _⟩

/-- `fixLastChapter` preserves nondecreasing end times when all ends are
bounded by `duration`. -/
theorem fixLastChapter_chain_end (d : ℚ) :
    ∀ l : List Chapter, List.Chain' chapterEndLE l →
      (∀ c ∈ l, c.episodeEndSec ≤ d) →
      List.Chain' chapterEndLE (fixLastChapter d l) := by
  intro l
  induction l with
  | nil => intro _ _; exact List.chain'_nil
  | cons c tail ih =>
    intro hch hle
    cases tail with
    | nil =>
      rw [fixLastChapter]
      split <;> exact List.chain'_singleton _
    | cons c2 cs =>
      rw [fixLastChapter]
      obtain ⟨x, xs, hx, _, hxe⟩ := fixLastChapter_head d c2 cs
      rw [hx]
      refine List.chain'_cons.mpr ⟨?_, ?_⟩
      · have hcc2 : chapterEndLE c c2 := (List.chain'_cons.mp hch).1
        exact le_trans hcc2 hxe
      · rw [← hx]
        exact ih (List.chain'_cons.mp hch).2
          (fun a ha => hle a (List.mem_cons_of_mem c ha))

/-- Every element of `fixLastChapter d l` keeps an end bounded by `d`
whenever all of `l`'s ends are bounded by `d`. -/
theorem fixLastChapter_end_le (d : ℚ) :
    ∀ l : List Chapter, (∀ c ∈ l, c.episodeEndSec ≤ d) →
      ∀ c ∈ fixLastChapter d l, c.episodeEndSec ≤ d := by
  intro l
  induction l with
  | nil => intro _ c hc; cases hc
  | cons c tail ih =>
    intro hle x hx
    cases tail with
    | nil =>
      rw [fixLastChapter] at hx
      split at hx
      · rcases List.mem_singleton.mp hx with rfl
        exact le_refl _
      · rcases List.mem_singleton.mp hx with rfl
        exact hle x (List.mem_cons_self x [])
    | cons c2 cs =>
      rw [fixLastChapter] at hx
      rcases List.mem_cons.mp hx with rfl | hx2
      · exact hle x (List.mem_cons_self x _)
      · exact ih (fun a ha => hle a (List.mem_cons_of_mem c ha)) x hx2

/-- **C1** (amended).  For a non-empty proposed chapter set that is
sorted by start with nondecreasing ends and stays inside
`[0, duration]`, and for which no chapter falls below 10 seconds after
boundary repair (so that the final filter drops nothing), the repaired
output is: unchanged by the filter, sorted ascending by start, starting
at 0, ending at `duration`, gap- and overlap-free (each start equals the
previous end), and with every chapter at least 10 seconds long.  (The
well-formedness hypotheses are necessary: dropping a short chapter after
repair reintroduces gaps, see the counterexample.) -/
theorem validateAndFixChapters_repair_spec
    (chapters : List Chapter) (duration : ℚ) (episodeId : ℕ)
    (hne : chapters ≠ [])
    (hsorted : List.Sorted chapterLE chapters)
    (hends : List.Chain' chapterEndLE chapters)
    (hbounds : ∀ c ∈ chapters, 0 ≤ c.episodeStartSec ∧
      c.episodeStartSec ≤ c.episodeEndSec ∧ c.episodeEndSec ≤ duration)
    (hmin : ∀ c ∈ repairedChapters chapters duration,
      10 ≤ c.episodeEndSec - c.episodeStartSec) :
    validateAndFixChapters chapters duration episodeId =
      repairedChapters chapters duration ∧
    List.Sorted chapterLE (repairedChapters chapters duration) ∧
    (repairedChapters chapters duration).head?.map Chapter.episodeStartSec =
      some 0 ∧
    (repairedChapters chapters duration).getLast?.map Chapter.episodeEndSec =
      some duration ∧
    List.Chain' chapterAdj (repairedChapters chapters duration) ∧
    ∀ c ∈ validateAndFixChapters chapters duration episodeId,
      10 ≤ c.episodeEndSec - c.episodeStartSec := by
  obtain ⟨c0, cs, rfl⟩ := List.exists_cons_of_ne_nil hne
  rcases hbounds c0 (List.mem_cons_self c0 cs) with ⟨h0s, h0se, h0e⟩
  have hsortEq : List.insertionSort chapterLE (c0 :: cs) = c0 :: cs :=
    hsorted.insertionSort_eq
  have hff : fixFirstChapter (c0 :: cs) =
      (if 0 < c0.episodeStartSec then { c0 with episodeStartSec := 0 }
        else c0) :: cs := rfl
  have hc0f_start :
      (if 0 < c0.episodeStartSec then { c0 with episodeStartSec := 0 }
        else c0).episodeStartSec = 0 := by
    split
    · rfl
    · next h => exact le_antisymm (not_lt.mp h) h0s
  have hc0f_end :
      (if 0 < c0.episodeStartSec then { c0 with episodeStartSec := 0 }
        else c0).episodeEndSec = c0.episodeEndSec := by
    split <;> rfl
  obtain ⟨y, ys, hF, hy_start, hy_end_ge⟩ :=
    fixLastChapter_head duration
      (if 0 < c0.episodeStartSec then { c0 with episodeStartSec := 0 }
        else c0) cs
  have hrep : repairedChapters (c0 :: cs) duration =
      y :: chainChapterStarts y ys := by
    rw [repairedChapters, hsortEq, hff, hF]
  have hy0 : y.episodeStartSec = 0 := by rw [hy_start, hc0f_start]
  have hendsIn : List.Chain' chapterEndLE
      ((if 0 < c0.episodeStartSec then { c0 with episodeStartSec := 0 }
        else c0) :: cs) := by
    cases cs with
    | nil => exact List.chain'_singleton _
    | cons c1 cs1 =>
      refine List.chain'_cons.mpr ⟨?_, (List.chain'_cons.mp hends).2⟩
      have h01 : chapterEndLE c0 c1 := (List.chain'_cons.mp hends).1
      unfold chapterEndLE at h01 ⊢
      rw [hc0f_end]
      exact h01
  have hleIn : ∀ c ∈ (if 0 < c0.episodeStartSec then
      { c0 with episodeStartSec := 0 } else c0) :: cs,
      c.episodeEndSec ≤ duration := by
    intro c hc
    rcases List.mem_cons.mp hc with rfl | hc2
    · rw [hc0f_end]; exact h0e
    · exact (hbounds c (List.mem_cons_of_mem c0 hc2)).2.2
  have hendsF : List.Chain' chapterEndLE (y :: ys) := by
    rw [← hF]
    exact fixLastChapter_chain_end duration _ hendsIn hleIn
  have hy_end_nonneg : 0 ≤ y.episodeEndSec := by
    calc (0 : ℚ) ≤ c0.episodeEndSec := le_trans h0s h0se
      _ = _ := hc0f_end.symm
      _ ≤ y.episodeEndSec := hy_end_ge
  have hchainEnds : List.Chain chapterEndLE y ys := hendsF
  have hchainLE : List.Chain chapterLE y (chainChapterStarts y ys) :=
    chainChapterStarts_chain_le ys y hchainEnds
      (by rw [hy0]; exact hy_end_nonneg)
  have hfilterEq : validateAndFixChapters (c0 :: cs) duration episodeId =
      repairedChapters (c0 :: cs) duration := by
    rw [validateAndFixChapters, if_neg hne]
    exact List.filter_eq_self.mpr (fun c hc => decide_eq_true (hmin c hc))
  refine ⟨hfilterEq, ?_, ?_, ?_, ?_, ?_⟩
  · rw [hrep]
    exact List.chain'_iff_pairwise.mp
      (show List.Chain' chapterLE (y :: chainChapterStarts y ys) from hchainLE)
  · rw [hrep]
    simp [hy0]
  · have hLast := fixLastChapter_last_end duration _ (by simp) hleIn
    rw [hF] at hLast
    rw [hrep]
    calc (y :: chainChapterStarts y ys).getLast?.map Chapter.episodeEndSec
        = ((y :: chainChapterStarts y ys).map Chapter.episodeEndSec).getLast? :=
          (List.getLast?_map ..).symm
      _ = ((y :: ys).map Chapter.episodeEndSec).getLast? := by
          simp only [List.map_cons, chainChapterStarts_map_end]
      _ = (y :: ys).getLast?.map Chapter.episodeEndSec :=
          List.getLast?_map ..
      _ = some duration := hLast
  · rw [hrep]
    exact show List.Chain' chapterAdj (y :: chainChapterStarts y ys) from
      chainChapterStarts_chain ys y
  · rw [hfilterEq]
    exact hmin

/-- A proposed chapter set whose middle chapter is shorter than 10
seconds: the repair fixes the boundaries, then the final filter drops the
short chapter and reintroduces a gap. -/
def chaptersGapDemo : List Chapter :=
  [ { id := 0, episodeId := 0, type := .section, title := [], summary := [],
      episodeStartSec := 0, episodeEndSec := 50 },
    { id := 1, episodeId := 0, type := .section, title := [], summary := [],
      episodeStartSec := 50, episodeEndSec := 55 },
    { id := 2, episodeId := 0, type := .section, title := [], summary := [],
      episodeStartSec := 55, episodeEndSec := 100 } ]

theorem chaptersGapDemo_eval :
    validateAndFixChapters chaptersGapDemo 100 0 =
    [ { id := 0, episodeId := 0, type := .section, title := [], summary := [],
        episodeStartSec := 0, episodeEndSec := 50 },
      { id := 2, episodeId := 0, type := .section, title := [], summary := [],
        episodeStartSec := 55, episodeEndSec := 100 } ] := by
  rw [validateAndFixChapters, if_neg (by simp [chaptersGapDemo])]
  norm_num [chaptersGapDemo, repairedChapters, fixFirstChapter, fixLastChapter,
    chainChapterStarts, List.insertionSort, List.orderedInsert, List.filter,
    chapterLE]

/-- Counterexample for **C1** as stated: after repair of
`chaptersGapDemo` with duration 100 the output is `[(0,50), (55,100)]`,
so the second chapter's start does not equal the first chapter's end —
the claimed no-gap invariant fails once the sub-10-second chapter is
filtered out. -/
theorem validateAndFixChapters_gap_counterexample :
    (validateAndFixChapters chaptersGapDemo 100 0).map
      (fun c => (c.episodeStartSec, c.episodeEndSec)) =
      [(0, 50), (55, 100)] ∧
    ¬ List.Chain' chapterAdj (validateAndFixChapters chaptersGapDemo 100 0) := by
  rw [chaptersGapDemo_eval]
  constructor
  · norm_num
  · intro h
    have h2 := (List.chain'_cons.mp h).1
    unfold chapterAdj at h2
    exact absurd h2 (by norm_num)

/-- The proposed chapter set from the claim's example:
`[{0,50},{40,100},{150,200}]`. -/
def chaptersExampleC1 : List Chapter :=
  [ { id := 0, episodeId := 0, type := .section, title := [], summary := [],
      episodeStartSec := 0, episodeEndSec := 50 },
    { id := 1, episodeId := 0, type := .section, title := [], summary := [],
      episodeStartSec := 40, episodeEndSec := 100 },
    { id := 2, episodeId := 0, type := .section, title := [], summary := [],
      episodeStartSec := 150, episodeEndSec := 200 } ]

theorem chaptersExampleC1_repaired :
    repairedChapters chaptersExampleC1 200 =
    [ { id := 0, episodeId := 0, type := .section, title := [], summary := [],
        episodeStartSec := 0, episodeEndSec := 50 },
      { id := 1, episodeId := 0, type := .section, title := [], summary := [],
        episodeStartSec := 50, episodeEndSec := 100 },
      { id := 2, episodeId := 0, type := .section, title := [], summary := [],
        episodeStartSec := 100, episodeEndSec := 200 } ] := by
  norm_num [chaptersExampleC1, repairedChapters, fixFirstChapter,
    fixLastChapter, chainChapterStarts, List.insertionSort,
    List.orderedInsert, chapterLE]

/-- Witness for **C1** at the claim's own example: the hypotheses hold,
and the repair produces `[{0,50},{50,100},{100,200}]` with all the
claimed invariants. -/
theorem validateAndFixChapters_repair_spec_witness :
    chaptersExampleC1 ≠ [] ∧
    List.Sorted chapterLE chaptersExampleC1 ∧
    List.Chain' chapterEndLE chaptersExampleC1 ∧
    (∀ c ∈ chaptersExampleC1, 0 ≤ c.episodeStartSec ∧
      c.episodeStartSec ≤ c.episodeEndSec ∧ c.episodeEndSec ≤ 200) ∧
    (∀ c ∈ repairedChapters chaptersExampleC1 200,
      10 ≤ c.episodeEndSec - c.episodeStartSec) ∧
    (validateAndFixChapters chaptersExampleC1 200 0).map
      (fun c => (c.episodeStartSec, c.episodeEndSec)) =
      [(0, 50), (50, 100), (100, 200)] ∧
    List.Sorted chapterLE (repairedChapters chaptersExampleC1 200) ∧
    (repairedChapters chaptersExampleC1 200).head?.map
      Chapter.episodeStartSec = some 0 ∧
    (repairedChapters chaptersExampleC1 200).getLast?.map
      Chapter.episodeEndSec = some 200 ∧
    List.Chain' chapterAdj (repairedChapters chaptersExampleC1 200) ∧
    ∀ c ∈ validateAndFixChapters chaptersExampleC1 200 0,
      10 ≤ c.episodeEndSec - c.episodeStartSec := by
  have h1 : chaptersExampleC1 ≠ [] := by simp [chaptersExampleC1]
  have h2 : List.Sorted chapterLE chaptersExampleC1 := by decide
  have h3 : List.Chain' chapterEndLE chaptersExampleC1 := by
    norm_num [chaptersExampleC1, List.chain'_cons, List.chain'_singleton,
      chapterEndLE]
  have h4 : ∀ c ∈ chaptersExampleC1, 0 ≤ c.episodeStartSec ∧
      c.episodeStartSec ≤ c.episodeEndSec ∧ c.episodeEndSec ≤ 200 := by decide
  have h5 : ∀ c ∈ repairedChapters chaptersExampleC1 200,
      10 ≤ c.episodeEndSec - c.episodeStartSec := by
    rw [chaptersExampleC1_repaired]
    intro c hc
    simp only [List.mem_cons, List.not_mem_nil, or_false] at hc
    rcases hc with rfl | rfl | rfl <;> norm_num
  have hmain := validateAndFixChapters_repair_spec chaptersExampleC1 200 0
    h1 h2 h3 h4 h5
  refine ⟨h1, h2, h3, h4, h5, ?_, hmain.2.1, hmain.2.2.1, hmain.2.2.2.1,
    hmain.2.2.2.2.1, hmain.2.2.2.2.2⟩
  rw [hmain.1, chaptersExampleC1_repaired]
  norm_num

/-- The outcomes of the chapter service call that trigger the default
3-chapter fallback: a failed/unparsable call, a missing `content`, or a
parsed result with zero chapters. -/
def ChaptersDefaultTrigger (outcome : ChaptersOutcome) : Prop :=
  outcome = .failure ∨ outcome = .noContent ∨ outcome = .parsed []

instance (outcome : ChaptersOutcome) : Decidable (ChaptersDefaultTrigger outcome) :=
  inferInstanceAs (Decidable (_ ∨ _ ∨ _))

/-- **C4**.  On any default-triggering outcome (failed call, timeout or
unparsable content — the shared `catch` —, missing content, or zero
parsed chapters) and a non-empty transcript, `identifyChapters` returns
exactly the 3 default chapters `introduction`/`section`/`credits`,
contiguous over `[0, episodeDuration]`, with the introduction ending at
`min(60, 10% of duration)` and the closing starting at
`max(duration − 60, 90% of duration)`. -/
theorem identifyChapters_default_fallback (outcome : ChaptersOutcome)
    (segments : List TranscriptSegment) (episodeId : ℕ)
    (hne : segments ≠ []) (htrig : ChaptersDefaultTrigger outcome) :
    identifyChapters outcome segments episodeId =
      createDefaultChapters episodeId
        (jsMaxQ (segments.map (·.end_time))) ∧
    (createDefaultChapters episodeId
        (jsMaxQ (segments.map (·.end_time)))).map
      (fun c => (c.type, c.episodeStartSec, c.episodeEndSec)) =
      [ (ChapterType.introduction, 0,
          min 60 (jsMaxQ (segments.map (·.end_time)) * (1 / 10))),
        (ChapterType.section,
          min 60 (jsMaxQ (segments.map (·.end_time)) * (1 / 10)),
          max (jsMaxQ (segments.map (·.end_time)) - 60)
            (jsMaxQ (segments.map (·.end_time)) * (9 / 10))),
        (ChapterType.credits,
          max (jsMaxQ (segments.map (·.end_time)) - 60)
            (jsMaxQ (segments.map (·.end_time)) * (9 / 10)),
          jsMaxQ (segments.map (·.end_time))) ] := by
  constructor
  · rcases htrig with rfl | rfl | rfl
    · rw [identifyChapters, if_neg hne]
    · rw [identifyChapters, if_neg hne]
    · rw [identifyChapters, if_neg hne]
      simp [validateAndFixChapters]
  · simp [createDefaultChapters]

/-- Witness for **C4**: a one-segment transcript ending at 200 s with a
failed service call produces the three defaults
`[(introduction,0,20), (section,20,180), (credits,180,200)]`. -/
theorem identifyChapters_default_fallback_witness :
    ([⟨"s1".toList, 0, 200, "hi".toList, "spk_0".toList⟩] :
      List TranscriptSegment) ≠ [] ∧
    ChaptersDefaultTrigger .failure ∧
    identifyChapters .failure
      [⟨"s1".toList, 0, 200, "hi".toList, "spk_0".toList⟩] 7 =
      createDefaultChapters 7 (jsMaxQ
        (([⟨"s1".toList, 0, 200, "hi".toList, "spk_0".toList⟩] :
          List TranscriptSegment).map (·.end_time))) ∧
    (createDefaultChapters 7 200).map
      (fun c => (c.type, c.episodeStartSec, c.episodeEndSec)) =
      [ (ChapterType.introduction, 0, 20), (ChapterType.section, 20, 180),
        (ChapterType.credits, 180, 200) ] := by
  refine ⟨by simp, Or.inl rfl,
    (identifyChapters_default_fallback .failure _ 7 (by simp)
      (Or.inl rfl)).1, ?_⟩
  norm_num [createDefaultChapters]

/-- **C10**.  The empty-input guards: with no transcript segments,
`identifyChapters` returns `[]` for every service outcome (no defaults
are synthesized), `identifySpeakers` returns the empty map for every
outcome, and `identifySegments` returns `[]` whenever the transcript or
the chapter list is empty. -/
theorem empty_input_guards (coutcome : ChaptersOutcome)
    (soutcome : SpeakersOutcome) (episodeId : ℕ) (sd : SpeakerData)
    (chapters : List Chapter) (proposals : ℕ → ℤ → List ProposedSegment)
    (ts : List TranscriptSegment) :
    identifyChapters coutcome [] episodeId = [] ∧
    identifySpeakers soutcome [] = emptySpeakerData ∧
    identifySegments [] sd chapters proposals episodeId = [] ∧
    identifySegments ts sd [] proposals episodeId = [] := by
  refine ⟨?_, ?_, ?_, ?_⟩
  · rw [identifyChapters]
    simp
  · rw [identifySpeakers.eq_def]
    simp [speakerLabelsOf, firstDedup, firstDedupGo]
  · rw [identifySegments]
    simp
  · rw [identifySegments]
    simp

/-- The three chapters of the claim's proportional-allocation example:
10, 20 and 30 minutes inside a 60-minute episode. -/
def chaptersExampleC7 : List Chapter :=
  [ { id := 0, episodeId := 0, type := .section, title := [], summary := [],
      episodeStartSec := 0, episodeEndSec := 600 },
    { id := 1, episodeId := 0, type := .section, title := [], summary := [],
      episodeStartSec := 600, episodeEndSec := 1800 },
    { id := 2, episodeId := 0, type := .section, title := [], summary := [],
      episodeStartSec := 1800, episodeEndSec := 3600 } ]

/-- **C7**.  The per-chapter segment target used by `identifySegments`
equals `max(1, round((chapterDuration / episodeDuration) * totalTarget))`
with `totalTarget = clamp(round(durationHours * 40), 20, 60)`, computed
independently per chapter with no renormalization; for the 60-minute
episode with 10/20/30-minute chapters the total target is 40 and the
per-chapter targets are 7, 13 and 20 (whose sum 40 is incidental). -/
theorem chapterTargetSegments_formula :
    (∀ (ch : Chapter) (d : ℚ),
      chapterTargetSegments ch d (totalTargetSegments d) =
        max 1 (jsRound ((ch.episodeEndSec - ch.episodeStartSec) / d *
          ((max 20 (min 60 (jsRound (d / 3600 * 40))) : ℤ) : ℚ)))) ∧
    totalTargetSegments 3600 = 40 ∧
    chaptersExampleC7.map
      (fun ch => chapterTargetSegments ch 3600 (totalTargetSegments 3600)) =
      [7, 13, 20] ∧
    (7 : ℤ) + 13 + 20 = 40 := by
  refine ⟨fun ch d => rfl, ?_, ?_, by norm_num⟩
  · norm_num [totalTargetSegments, jsRound]
  · have h40 : totalTargetSegments 3600 = 40 := by
      norm_num [totalTargetSegments, jsRound]
    rw [h40]
    norm_num [chaptersExampleC7, chapterTargetSegments, jsRound]

/-- **C8**.  A segment of type `promotion`, `credits` or `sound-only` is
never in the list submitted to Graphiti (`segmentsToIngest`, the loop
domain of `ingestSegmentsToGraphiti`), yet is still in the list persisted
by the handler's upsert loop. -/
theorem skip_types_not_ingested (segments : List Segment) (s : Segment)
    (hmem : s ∈ segments) (hskip : s.type ∈ SKIP_GRAPHITI_TYPES) :
    s ∉ segmentsToIngest segments ∧ s ∈ upsertedSegments segments := by
  constructor
  · intro hin
    rcases List.mem_filter.mp hin with ⟨_, hp⟩
    simp at hp
    exact hp hskip
  · exact hmem

/-- A concrete promotion segment for the **C8** witness. -/
def segmentPromoDemo : Segment :=
  { id := 0, episodeId := 0, chapterId := none, type := .promotion,
    episodeStartSec := 0, episodeEndSec := 30, lucidity := 3, polarity := 0,
    arousal := 2, subjectivity := 1, humor := 0, transcriptExcerpt := none }

/-- Witness for **C8**: a promotion segment is persisted but not
submitted. -/
theorem skip_types_not_ingested_witness :
    segmentPromoDemo ∈ [segmentPromoDemo] ∧
    segmentPromoDemo.type ∈ SKIP_GRAPHITI_TYPES ∧
    segmentPromoDemo ∉ segmentsToIngest [segmentPromoDemo] ∧
    segmentPromoDemo ∈ upsertedSegments [segmentPromoDemo] := by
  have h := skip_types_not_ingested [segmentPromoDemo] segmentPromoDemo
    (by decide) (by decide)
  exact ⟨by decide, by decide, h.1, h.2⟩

/-! ## Speaker fallback lemmas -/

/-- Outcomes of the speaker service call handled by the deterministic
fallback (`catch` and missing/empty content). -/
def SpeakersFailureTrigger : SpeakersOutcome → Prop
  | .failure => True
  | .noContent => True
  | .parsed _ => False

instance (outcome : SpeakersOutcome) :
    Decidable (SpeakersFailureTrigger outcome) := by
  cases outcome <;>
    first
      | exact isTrue trivial
      | exact isFalse (fun h => h)

theorem speakerDataSet_same (m : SpeakerData) (k : Str) (v : SpeakerInfo) :
    (m.set k v) k = some v := by
  unfold SpeakerData.set
  simp

theorem speakerDataSet_other (m : SpeakerData) (k l : Str) (v : SpeakerInfo)
    (h : l ≠ k) : (m.set k v) l = m l := by
  unfold SpeakerData.set
  simp [h]

/-- Keys outside the folded label list are untouched by the default
builder. -/
theorem foldDefault_notmem :
    ∀ (labels : List Str) (m : SpeakerData) (l : Str), l ∉ labels →
      (labels.foldl (fun m label => m.set label (defaultSpeakerInfo label)) m) l
        = m l := by
  intro labels
  induction labels with
  | nil => intro m l _; rfl
  | cons a rest ih =>
    intro m l hl
    rw [List.foldl_cons]
    rw [ih _ _ (fun h => hl (List.mem_cons_of_mem a h))]
    exact speakerDataSet_other m a l _ (fun h => hl (h ▸ List.mem_cons_self a rest))

/-- Every folded label ends up mapped to its default info. -/
theorem foldDefault_mem :
    ∀ (labels : List Str) (m : SpeakerData) (l : Str), l ∈ labels →
      (labels.foldl (fun m label => m.set label (defaultSpeakerInfo label)) m) l
        = some (defaultSpeakerInfo l) := by
  intro labels
  induction labels with
  | nil => intro m l hl; cases hl
  | cons a rest ih =>
    intro m l hl
    rw [List.foldl_cons]
    by_cases hrest : l ∈ rest
    · exact ih _ _ hrest
    · rcases List.mem_cons.mp hl with rfl | h2
      · rw [foldDefault_notmem rest _ _ hrest, speakerDataSet_same]
      · exact absurd h2 hrest

/-- The back-fill loop never erases an existing entry. -/
theorem backfill_mono :
    ∀ (labels : List Str) (m : SpeakerData) (l : Str), m l ≠ none →
      (labels.foldl
        (fun m label =>
          if m label = none then
            m.set label
              { name := "Speaker ".toList ++
                  jsReplaceFirst label "spk_".toList [], role := .unknown }
          else m) m) l ≠ none := by
  intro labels
  induction labels with
  | nil => intro m l h; exact h
  | cons a rest ih =>
    intro m l h
    rw [List.foldl_cons]
    refine ih _ _ ?_
    split
    · by_cases hla : l = a
      · subst hla
        rw [speakerDataSet_same]
        simp
      · rw [speakerDataSet_other _ _ _ _ hla]
        exact h
    · exact h

/-- After the back-fill loop, every folded label has an entry. -/
theorem backfill_mem :
    ∀ (labels : List Str) (m : SpeakerData) (l : Str), l ∈ labels →
      (labels.foldl
        (fun m label =>
          if m label = none then
            m.set label
              { name := "Speaker ".toList ++
                  jsReplaceFirst label "spk_".toList [], role := .unknown }
          else m) m) l ≠ none := by
  intro labels
  induction labels with
  | nil => intro m l hl; cases hl
  | cons a rest ih =>
    intro m l hl
    rw [List.foldl_cons]
    by_cases hrest : l ∈ rest
    · exact ih _ _ hrest
    · rcases List.mem_cons.mp hl with rfl | h2
      · refine backfill_mono rest _ _ ?_
        split
        · rw [speakerDataSet_same]
          simp
        · next h3 => exact h3
      · exact absurd h2 hrest

/-- A pattern matches at the head of itself followed by anything. -/
theorem matchesHead_self_append : ∀ (pat t : Str),
    matchesHead pat (pat ++ t) = true := by
  intro pat
  induction pat with
  | nil => intro t; rfl
  | cons p ps ih =>
    intro t
    show matchesHead (p :: ps) (p :: (ps ++ t)) = true
    rw [matchesHead]
    simp [ih]

/-- Stripping the `spk_` prefix from `spk_` followed by a suffix yields
the suffix. -/
theorem jsReplaceFirst_strip (n : Str) :
    jsReplaceFirst ("spk_".toList ++ n) "spk_".toList [] = n := by
  unfold jsReplaceFirst
  have hshape : "spk_".toList ++ n = 's' :: 'p' :: 'k' :: '_' :: n := rfl
  have hfirst : firstMatchIdx "spk_".toList ("spk_".toList ++ n) = some 0 := by
    rw [hshape, firstMatchIdx, if_pos]
    rw [← hshape]
    exact matchesHead_self_append _ n
  rw [hfirst]
  rfl

theorem identifySpeakers_failure_eq (segments : List TranscriptSegment)
    (h : speakerLabelsOf segments ≠ []) :
    identifySpeakers .failure segments =
      createDefaultSpeakerData (speakerLabelsOf segments) := by
  rw [identifySpeakers.eq_def]
  simp [h]

theorem identifySpeakers_noContent_eq (segments : List TranscriptSegment)
    (h : speakerLabelsOf segments ≠ []) :
    identifySpeakers .noContent segments =
      createDefaultSpeakerData (speakerLabelsOf segments) := by
  rw [identifySpeakers.eq_def]
  simp [h]

theorem identifySpeakers_parsed_eq (segments : List TranscriptSegment)
    (speakers : List ProposedSpeaker) (h : speakerLabelsOf segments ≠ []) :
    identifySpeakers (.parsed speakers) segments =
      (speakerLabelsOf segments).foldl
        (fun m label =>
          if m label = none then
            m.set label
              { name := "Speaker ".toList ++
                  jsReplaceFirst label "spk_".toList [], role := .unknown }
          else m)
        (speakers.foldl
          (fun m sp => m.set sp.pid { name := sp.name, role := sp.role })
          emptySpeakerData) := by
  rw [identifySpeakers.eq_def]
  simp [h]

/-- **C5**.  `identifySpeakers` always produces an entry for every
distinct speaker label of the input; on a failed call, unparsable
content, or an empty/missing response, every label `l` deterministically
maps to `defaultSpeakerInfo l`, which is `{Host, host}` for `spk_0` and
`{Speaker N, unknown}` for every other label `spk_N`. -/
theorem identifySpeakers_complete_and_fallback
    (segments : List TranscriptSegment) (outcome : SpeakersOutcome) :
    (∀ l ∈ speakerLabelsOf segments,
      ∃ info, identifySpeakers outcome segments l = some info) ∧
    (SpeakersFailureTrigger outcome →
      ∀ l ∈ speakerLabelsOf segments,
        identifySpeakers outcome segments l =
          some (defaultSpeakerInfo l)) ∧
    defaultSpeakerInfo "spk_0".toList =
      { name := "Host".toList, role := .host } ∧
    (∀ n : Str, n ≠ "0".toList →
      defaultSpeakerInfo ("spk_".toList ++ n) =
        { name := "Speaker ".toList ++ n, role := .unknown }) := by
  have hlabne : ∀ l, l ∈ speakerLabelsOf segments →
      speakerLabelsOf segments ≠ [] := by
    intro l hl h
    rw [h] at hl
    cases hl
  refine ⟨?_, ?_, ?_, ?_⟩
  · intro l hl
    cases outcome with
    | failure =>
      rw [identifySpeakers_failure_eq segments (hlabne l hl)]
      exact ⟨defaultSpeakerInfo l, foldDefault_mem _ _ _ hl⟩
    | noContent =>
      rw [identifySpeakers_noContent_eq segments (hlabne l hl)]
      exact ⟨defaultSpeakerInfo l, foldDefault_mem _ _ _ hl⟩
    | parsed speakers =>
      rw [identifySpeakers_parsed_eq segments speakers (hlabne l hl)]
      have h2 := backfill_mem (speakerLabelsOf segments)
        (speakers.foldl
          (fun m sp => m.set sp.pid { name := sp.name, role := sp.role })
          emptySpeakerData) l hl
      exact Option.ne_none_iff_exists'.mp h2
  · intro htrig l hl
    cases outcome with
    | failure =>
      rw [identifySpeakers_failure_eq segments (hlabne l hl)]
      exact foldDefault_mem _ _ _ hl
    | noContent =>
      rw [identifySpeakers_noContent_eq segments (hlabne l hl)]
      exact foldDefault_mem _ _ _ hl
    | parsed speakers => exact absurd htrig (fun h => h)
  · rfl
  · intro n hn
    unfold defaultSpeakerInfo
    rw [jsReplaceFirst_strip, if_neg hn]

/-- A two-speaker transcript for the **C5** witness. -/
def segmentsSpkDemo : List TranscriptSegment :=
  [ ⟨"s1".toList, 0, 10, "hello".toList, "spk_0".toList⟩,
    ⟨"s2".toList, 10, 20, "there".toList, "spk_1".toList⟩ ]

/-- Witness for **C5**: with a failed service call on a two-speaker
transcript, `spk_0` maps to `{Host, host}` and `spk_1` to
`{Speaker 1, unknown}`. -/
theorem identifySpeakers_complete_and_fallback_witness :
    "spk_0".toList ∈ speakerLabelsOf segmentsSpkDemo ∧
    "spk_1".toList ∈ speakerLabelsOf segmentsSpkDemo ∧
    SpeakersFailureTrigger .failure ∧
    identifySpeakers .failure segmentsSpkDemo "spk_0".toList =
      some { name := "Host".toList, role := .host } ∧
    identifySpeakers .failure segmentsSpkDemo "spk_1".toList =
      some { name := "Speaker ".toList ++ "1".toList, role := .unknown } := by
  obtain ⟨_, hfb, hhost, hother⟩ :=
    identifySpeakers_complete_and_fallback segmentsSpkDemo .failure
  have hm0 : "spk_0".toList ∈ speakerLabelsOf segmentsSpkDemo := by decide
  have hm1 : "spk_1".toList ∈ speakerLabelsOf segmentsSpkDemo := by decide
  refine ⟨hm0, hm1, trivial, ?_, ?_⟩
  · rw [hfb trivial _ hm0, hhost]
  · have h4 := hother "1".toList (by decide)
    have hshape : ("spk_1".toList : Str) = "spk_".toList ++ "1".toList := rfl
    rw [hfb trivial _ hm1, hshape, h4]

/-! ## Segment chapter-binding lemmas -/

/-- Every segment emitted by `clampSegments` is the clamp of one of the
proposals. -/
theorem clampSegments_mem (ch : Chapter) (eid : ℕ)
    (ts : List TranscriptSegment) (sd : SpeakerData) (i : ℕ) :
    ∀ (ps : List ProposedSegment) (j : ℕ) (seg : Segment),
      seg ∈ clampSegments ch eid ts sd i j ps →
      ∃ p ∈ ps, seg.chapterId = some ch.id ∧
        seg.episodeStartSec = max ch.episodeStartSec p.start_sec ∧
        seg.episodeEndSec = min ch.episodeEndSec p.end_sec := by
  intro ps
  induction ps with
  | nil => intro j seg h; cases h
  | cons p ps ih =>
    intro j seg h
    rw [clampSegments] at h
    rcases List.mem_cons.mp h with rfl | h2
    · exact ⟨p, List.mem_cons_self p ps, rfl, rfl, rfl⟩
    · obtain ⟨p2, hp2, hrest⟩ := ih (j + 1) seg h2
      exact ⟨p2, List.mem_cons_of_mem p hp2, hrest⟩

/-- Well-formedness of the oracle's proposals relative to the chapters
they are requested for: each chapter is non-degenerate, and each
proposal for it starts before the chapter's end and ends at or after the
chapter's start. -/
def SegmentProposalsWF (chapters : List Chapter)
    (proposals : ℕ → ℤ → List ProposedSegment) (episodeDuration : ℚ) : Prop :=
  ∀ pr ∈ chapters.enumFrom 0,
    pr.2.episodeStartSec < pr.2.episodeEndSec ∧
    ∀ p ∈ proposals pr.1 (chapterTargetSegments pr.2 episodeDuration
        (totalTargetSegments episodeDuration)),
      p.start_sec < pr.2.episodeEndSec ∧ pr.2.episodeStartSec ≤ p.end_sec

instance (chapters : List Chapter) (proposals : ℕ → ℤ → List ProposedSegment)
    (d : ℚ) : Decidable (SegmentProposalsWF chapters proposals d) :=
  inferInstanceAs (Decidable (∀ pr ∈ chapters.enumFrom 0, _ ∧ ∀ p ∈ _, _ ∧ _))

/-- Spec of the chapter loop: every produced segment comes from one of
the remaining chapters, is bound to it by `chapterId`, has clamped
bounds inside it, and — by well-formedness — its midpoint lies in the
chapter's half-open range. -/
theorem identifySegmentsGo_spec (ts : List TranscriptSegment)
    (sd : SpeakerData) (eid : ℕ) (proposals : ℕ → ℤ → List ProposedSegment)
    (d : ℚ) :
    ∀ (cs : List Chapter) (i : ℕ),
      (∀ pr ∈ cs.enumFrom i,
        pr.2.episodeStartSec < pr.2.episodeEndSec ∧
        ∀ p ∈ proposals pr.1 (chapterTargetSegments pr.2 d
            (totalTargetSegments d)),
          p.start_sec < pr.2.episodeEndSec ∧
          pr.2.episodeStartSec ≤ p.end_sec) →
      ∀ seg ∈ identifySegmentsGo ts sd eid proposals d i cs,
        ∃ ch ∈ cs, seg.chapterId = some ch.id ∧
          ch.episodeStartSec ≤ seg.episodeStartSec ∧
          seg.episodeEndSec ≤ ch.episodeEndSec ∧
          ch.episodeStartSec ≤
            (seg.episodeStartSec + seg.episodeEndSec) / 2 ∧
          (seg.episodeStartSec + seg.episodeEndSec) / 2 <
            ch.episodeEndSec := by
  intro cs
  induction cs with
  | nil => intro i _ seg h; cases h
  | cons ch rest ih =>
    intro i hwf seg hseg
    rw [identifySegmentsGo] at hseg
    have hhead := hwf (i, ch) (by rw [List.enumFrom]; exact List.mem_cons_self _ _)
    rcases List.mem_append.mp hseg with h1 | h2
    · obtain ⟨p, hp, hid, hs, he⟩ := clampSegments_mem ch eid ts sd i _ _ seg h1
      obtain ⟨hlt, hp2⟩ := hhead
      obtain ⟨hps, hpe⟩ := hp2 p hp
      refine ⟨ch, List.mem_cons_self ch rest, hid, ?_, ?_, ?_, ?_⟩
      · rw [hs]; exact le_max_left _ _
      · rw [he]; exact min_le_left _ _
      · rw [hs, he]
        have h1 : ch.episodeStartSec ≤ max ch.episodeStartSec p.start_sec :=
          le_max_left _ _
        have h2 : ch.episodeStartSec ≤ min ch.episodeEndSec p.end_sec :=
          le_min (le_of_lt hlt) hpe
        linarith
      · rw [hs, he]
        have h1 : max ch.episodeStartSec p.start_sec < ch.episodeEndSec :=
          max_lt hlt hps
        have h2 : min ch.episodeEndSec p.end_sec ≤ ch.episodeEndSec :=
          min_le_left _ _
        linarith
    · have hwftail : ∀ pr ∈ rest.enumFrom (i + 1),
          pr.2.episodeStartSec < pr.2.episodeEndSec ∧
          ∀ p ∈ proposals pr.1 (chapterTargetSegments pr.2 d
              (totalTargetSegments d)),
            p.start_sec < pr.2.episodeEndSec ∧
            pr.2.episodeStartSec ≤ p.end_sec := by
        intro pr hpr
        refine hwf pr ?_
        rw [List.enumFrom]
        exact List.mem_cons_of_mem _ hpr
      obtain ⟨ch2, hch2, hrest⟩ := ih (i + 1) hwftail seg h2
      exact ⟨ch2, List.mem_cons_of_mem ch hch2, hrest⟩

/-- **C3** (amended).  Every segment produced by `identifySegments` is
bound to exactly one chapter — the chapter whose loop iteration (and
per-chapter service call) produced it, whose id is recorded in
`chapterId` — and its clamped bounds lie inside that chapter; provided
every chapter is non-degenerate and each proposal overlaps its chapter
(`start_sec` before the chapter's end, `end_sec` at or after its start),
that chapter also contains the midpoint of the segment's final (clamped)
bounds in `[chapterStart, chapterEnd)`.  Midpoint containment is not the
selection rule: `assignChapterToSegment` is never invoked, and for
degenerate clamps the recorded chapter differs from the midpoint one
(see the counterexample). -/
theorem identifySegments_chapter_binding (ts : List TranscriptSegment)
    (sd : SpeakerData) (chapters : List Chapter)
    (proposals : ℕ → ℤ → List ProposedSegment) (eid : ℕ)
    (hids : (chapters.map Chapter.id).Nodup)
    (hwf : SegmentProposalsWF chapters proposals
      (jsMaxQ (ts.map (·.end_time)))) :
    ∀ seg ∈ identifySegments ts sd chapters proposals eid,
      ∃ ch ∈ chapters, seg.chapterId = some ch.id ∧
        ch.episodeStartSec ≤ seg.episodeStartSec ∧
        seg.episodeEndSec ≤ ch.episodeEndSec ∧
        ch.episodeStartSec ≤ (seg.episodeStartSec + seg.episodeEndSec) / 2 ∧
        (seg.episodeStartSec + seg.episodeEndSec) / 2 < ch.episodeEndSec ∧
        ∀ ch2 ∈ chapters, seg.chapterId = some ch2.id → ch2 = ch := by
  intro seg hseg
  by_cases hg : ts = [] ∨ chapters = []
  · rw [identifySegments, if_pos hg] at hseg
    cases hseg
  · rw [identifySegments, if_neg hg] at hseg
    have hwf2 : ∀ pr ∈ chapters.enumFrom 0,
        pr.2.episodeStartSec < pr.2.episodeEndSec ∧
        ∀ p ∈ proposals pr.1 (chapterTargetSegments pr.2
            (jsMaxQ (ts.map (fun s => s.end_time)))
            (totalTargetSegments (jsMaxQ (ts.map (fun s => s.end_time))))),
          p.start_sec < pr.2.episodeEndSec ∧ pr.2.episodeStartSec ≤ p.end_sec :=
      hwf
    obtain ⟨ch, hch, hid, hb1, hb2, hm1, hm2⟩ :=
      identifySegmentsGo_spec ts sd eid proposals _ chapters 0 hwf2 seg hseg
    refine ⟨ch, hch, hid, hb1, hb2, hm1, hm2, ?_⟩
    intro ch2 hch2 hid2
    have hideq : ch2.id = ch.id := by
      rw [hid] at hid2
      exact (Option.some_injective _ hid2.symm)
    exact List.inj_on_of_nodup_map hids hch2 hch hideq

/-- The transcript, chapters and oracle for the **C3**
counterexample/witness: two chapters `[0,100)` (id 0) and `[100,300)`
(id 1); the oracle answers only for the first chapter. -/
def tsC3 : List TranscriptSegment :=
  [⟨"t1".toList, 0, 300, "x".toList, "spk_0".toList⟩]

def chaptersC3 : List Chapter :=
  [ { id := 0, episodeId := 0, type := .section, title := [], summary := [],
      episodeStartSec := 0, episodeEndSec := 100 },
    { id := 1, episodeId := 0, type := .section, title := [], summary := [],
      episodeStartSec := 100, episodeEndSec := 300 } ]

/-- The oracle for the counterexample: for the first chapter it proposes
a segment lying entirely after that chapter (150–190). -/
def proposalsC3 : ℕ → ℤ → List ProposedSegment :=
  fun i _ => if i = 0 then [⟨.other, 150, 190, 0, 0, 0, 0, 0⟩] else []

set_option maxHeartbeats 1000000 in
theorem identifySegmentsC3_eval :
    identifySegments tsC3 emptySpeakerData chaptersC3 proposalsC3 0 =
    [ { id := 0, episodeId := 0, chapterId := some 0, type := .other,
        episodeStartSec := 150, episodeEndSec := 100, lucidity := 0,
        polarity := 0, arousal := 0, subjectivity := 0, humor := 0,
        transcriptExcerpt := none } ] := by decide

/-- Counterexample for **C3** as stated: the only produced segment has
clamped bounds `150–100` (the proposal lay outside its chapter), whose
midpoint 125 lies in chapter id 1, but `chapterId` records chapter id 0
— no chapter both carries the recorded id and contains the midpoint. -/
theorem identifySegments_midpoint_counterexample :
    ¬ (∀ seg ∈ identifySegments tsC3 emptySpeakerData chaptersC3
          proposalsC3 0,
        ∃ ch ∈ chaptersC3, seg.chapterId = some ch.id ∧
          ch.episodeStartSec ≤ (seg.episodeStartSec + seg.episodeEndSec) / 2 ∧
          (seg.episodeStartSec + seg.episodeEndSec) / 2 <
            ch.episodeEndSec) := by
  intro h
  rw [identifySegmentsC3_eval] at h
  obtain ⟨ch, hch, hid, h1, h2⟩ := h _ (List.mem_cons_self _ _)
  simp only [chaptersC3, List.mem_cons, List.not_mem_nil, or_false] at hch
  rcases hch with rfl | rfl
  · norm_num at h2
  · simp at hid

/-- The well-formed oracle for the **C3** witness: one in-range proposal
(10–50) for the first chapter. -/
def proposalsC3W : ℕ → ℤ → List ProposedSegment :=
  fun i _ => if i = 0 then [⟨.analysis, 10, 50, 0, 0, 0, 0, 0⟩] else []

/-- The segment produced for the **C3** witness oracle. -/
def segC3W : Segment :=
  { id := 0, episodeId := 0, chapterId := some 0, type := .analysis,
    episodeStartSec := max 0 10, episodeEndSec := min 100 50,
    lucidity := 0, polarity := 0, arousal := 0, subjectivity := 0,
    humor := 0, transcriptExcerpt := none }

/-- Witness for **C3** at a well-formed oracle: the produced segment is
bound to chapter id 0, lies inside `[0,100)`, and its midpoint 30 is
contained there. -/
theorem identifySegments_chapter_binding_witness :
    (chaptersC3.map Chapter.id).Nodup ∧
    SegmentProposalsWF chaptersC3 proposalsC3W
      (jsMaxQ (tsC3.map (·.end_time))) ∧
    ∃ seg ∈ identifySegments tsC3 emptySpeakerData chaptersC3 proposalsC3W 0,
      ∃ ch ∈ chaptersC3, seg.chapterId = some ch.id ∧
        ch.episodeStartSec ≤ seg.episodeStartSec ∧
        seg.episodeEndSec ≤ ch.episodeEndSec ∧
        ch.episodeStartSec ≤ (seg.episodeStartSec + seg.episodeEndSec) / 2 ∧
        (seg.episodeStartSec + seg.episodeEndSec) / 2 < ch.episodeEndSec ∧
        ∀ ch2 ∈ chaptersC3, seg.chapterId = some ch2.id → ch2 = ch := by
  have hids : (chaptersC3.map Chapter.id).Nodup := by decide
  have hwf : SegmentProposalsWF chaptersC3 proposalsC3W
      (jsMaxQ (tsC3.map (·.end_time))) := by decide
  refine ⟨hids, hwf, ?_⟩
  have hmem : segC3W ∈
      identifySegments tsC3 emptySpeakerData chaptersC3 proposalsC3W 0 := by
    decide
  exact ⟨_, hmem,
    identifySegments_chapter_binding tsC3 emptySpeakerData chaptersC3
      proposalsC3W 0 hids hwf _ hmem⟩

/-! ## Transcript normalizer (chunkBySpeaker) lemmas -/

/-- Newline-joined concatenation (the accumulated `text` of a block). -/
def joinNL : List Str → Str
  | [] => []
  | [x] => x
  | x :: y :: rest => x ++ '\n' :: joinNL (y :: rest)

theorem joinNL_append_singleton :
    ∀ (xs : List Str) (y : Str), xs ≠ [] →
      joinNL (xs ++ [y]) = joinNL xs ++ '\n' :: y := by
  intro xs
  induction xs with
  | nil => intro y h; exact absurd rfl h
  | cons x rest ih =>
    intro y _
    cases rest with
    | nil => rfl
    | cons x2 rest2 =>
      have h2 : (x :: x2 :: rest2) ++ [y] = x :: x2 :: (rest2 ++ [y]) := by
        simp
      rw [h2, joinNL,
        show x2 :: (rest2 ++ [y]) = (x2 :: rest2) ++ [y] from by simp,
        ih y (by simp), joinNL]
      simp [List.append_assoc]

/-- A formatted segment text `"{label}: {transcript}"` has at least the
two separator characters. -/
theorem segmentTextOf_length_ge (s : TranscriptSegment) :
    2 ≤ (segmentTextOf s).length := by
  rw [segmentTextOf, List.length_append, List.length_cons, List.length_cons]
  omega

/-- The invariant carried by the open block of the `chunkBySpeaker`
loop. -/
def GoodChunk (c : TranscriptChunk) : Prop :=
  c.lines ≠ [] ∧
  c.text = joinNL (c.lines.map segmentTextOf) ∧
  (∀ s ∈ c.lines, s.speaker_label = c.speakerLabel) ∧
  (2 ≤ c.lines.length → c.text.length ≤ MAX_CHUNK_CHARS + 1) ∧
  (∀ s ∈ c.lines, MAX_CHUNK_CHARS < (segmentTextOf s).length →
    c.lines = [s])

/-- A block boundary is justified: the first segment of the next block
could not have been appended to the previous block (different speaker,
or the pre-append budget test fired). -/
def blockBoundaryOk (b1 b2 : TranscriptChunk) : Prop :=
  ∀ s, b2.lines.head? = some s →
    (s.speaker_label ≠ b1.speakerLabel ∨
      MAX_CHUNK_CHARS < b1.text.length + (segmentTextOf s).length)

/-- A freshly started block satisfies the invariant. -/
theorem goodChunk_new (seg : TranscriptSegment) : GoodChunk (newChunkOf seg) := by
  refine ⟨by simp [newChunkOf], rfl, ?_, ?_, ?_⟩
  · intro s hs
    rcases List.mem_singleton.mp hs with rfl
    rfl
  · intro h
    simp [newChunkOf] at h
  · intro s hs _
    rcases List.mem_singleton.mp hs with rfl
    rfl

/-- Appending a segment to an open block (the `else` branch of the loop)
preserves the invariant. -/
theorem goodChunk_append (cur : TranscriptChunk) (seg : TranscriptSegment)
    (hg : GoodChunk cur) (hlab : cur.speakerLabel = seg.speaker_label)
    (hfit : cur.text.length + (segmentTextOf seg).length ≤ MAX_CHUNK_CHARS) :
    GoodChunk { cur with
      lines := cur.lines ++ [seg], endTime := seg.end_time,
      text := cur.text ++ '\n' :: segmentTextOf seg } := by
  obtain ⟨hne, htext, hhom, hbud, hover⟩ := hg
  refine ⟨by simp, ?_, ?_, ?_, ?_⟩
  · show cur.text ++ '\n' :: segmentTextOf seg =
      joinNL ((cur.lines ++ [seg]).map segmentTextOf)
    rw [List.map_append, List.map_singleton,
      joinNL_append_singleton _ _ (by simpa using hne), htext]
  · intro s hs
    rcases List.mem_append.mp hs with h | h
    · exact hhom s h
    · rcases List.mem_singleton.mp h with rfl
      exact hlab.symm
  · intro _
    show (cur.text ++ '\n' :: segmentTextOf seg).length ≤ MAX_CHUNK_CHARS + 1
    rw [List.length_append, List.length_cons]
    omega
  · intro s hs hbig
    exfalso
    rcases List.mem_append.mp hs with h | h
    · have hsing := hover s h hbig
      have heqt : cur.text = segmentTextOf s := by
        rw [htext, hsing, List.map_singleton]
        rfl
      have hlen : cur.text.length = (segmentTextOf s).length := by rw [heqt]
      have h2 := segmentTextOf_length_ge seg
      omega
    · rcases List.mem_singleton.mp h with rfl
      omega

/-- Spec of the `chunkBySpeaker` loop body: the produced blocks start
with the open block's first line and speaker, partition the remaining
segments, all satisfy the invariant, and consecutive blocks have
justified boundaries. -/
theorem chunkBySpeakerGo_spec :
    ∀ (segs : List TranscriptSegment) (cur : TranscriptChunk),
      GoodChunk cur →
      ∃ c rest, chunkBySpeakerGo cur segs = c :: rest ∧
        c.speakerLabel = cur.speakerLabel ∧
        c.lines.head? = cur.lines.head? ∧
        ((c :: rest).map TranscriptChunk.lines).flatten = cur.lines ++ segs ∧
        (∀ ch ∈ c :: rest, GoodChunk ch) ∧
        List.Chain' blockBoundaryOk (c :: rest) := by
  intro segs
  induction segs with
  | nil =>
    intro cur hg
    refine ⟨cur, [], rfl, rfl, rfl, by simp, ?_, List.chain'_singleton _⟩
    intro ch hch
    rcases List.mem_singleton.mp hch with rfl
    exact hg
  | cons seg rest ih =>
    intro cur hg
    rw [chunkBySpeakerGo]
    by_cases hcond : cur.speakerLabel ≠ seg.speaker_label ∨
        MAX_CHUNK_CHARS < cur.text.length + (segmentTextOf seg).length
    · rw [if_pos hcond]
      obtain ⟨c2, rest2, heq, hlab2, hhead2, hflat2, hgood2, hchain2⟩ :=
        ih (newChunkOf seg) (goodChunk_new seg)
      rw [heq]
      refine ⟨cur, c2 :: rest2, rfl, rfl, rfl, ?_, ?_, ?_⟩
      · show cur.lines ++ ((c2 :: rest2).map TranscriptChunk.lines).flatten =
          cur.lines ++ seg :: rest
        rw [hflat2]
        rfl
      · intro ch hch
        rcases List.mem_cons.mp hch with rfl | h2
        · exact hg
        · exact hgood2 ch h2
      · refine List.chain'_cons.mpr ⟨?_, hchain2⟩
        intro s hs
        rw [hhead2] at hs
        have hseg : s = seg := by
          simp [newChunkOf] at hs
          exact hs.symm
        subst hseg
        rcases hcond with h | h
        · exact Or.inl (Ne.symm h)
        · exact Or.inr h
    · rw [if_neg hcond]
      push_neg at hcond
      obtain ⟨hlab, hfit⟩ := hcond
      obtain ⟨c2, rest2, heq, hlab2, hhead2, hflat2, hgood2, hchain2⟩ :=
        ih _ (goodChunk_append cur seg hg hlab hfit)
      rw [heq]
      refine ⟨c2, rest2, rfl, hlab2, ?_, ?_, hgood2, hchain2⟩
      · rw [hhead2]
        cases hl : cur.lines with
        | nil => exact absurd hl hg.1
        | cons a l => simp [hl]
      · rw [hflat2]
        show (cur.lines ++ [seg]) ++ rest = cur.lines ++ seg :: rest
        simp

/-- **C6** (amended).  `chunkBySpeaker` partitions the segment sequence
into blocks without splitting any segment (the blocks' lines concatenate
back to the input); every block is speaker-homogeneous; a new block
starts only when the previous block's speaker differs or the budget test
`previousText.length + segmentText.length > MAX_CHUNK_CHARS` fired;
every block with two or more segments has text of length at most
`MAX_CHUNK_CHARS + 1` (not `MAX_CHUNK_CHARS`: the appended newline
separator is not counted by the budget test); and a segment whose
formatted text alone exceeds the budget sits alone in its block. -/
theorem chunkBySpeaker_spec (segs : List TranscriptSegment) :
    ((chunkBySpeaker segs).map TranscriptChunk.lines).flatten = segs ∧
    (∀ ch ∈ chunkBySpeaker segs, ∀ s ∈ ch.lines,
      s.speaker_label = ch.speakerLabel) ∧
    (∀ ch ∈ chunkBySpeaker segs, 2 ≤ ch.lines.length →
      ch.text.length ≤ MAX_CHUNK_CHARS + 1) ∧
    (∀ ch ∈ chunkBySpeaker segs, ∀ s ∈ ch.lines,
      MAX_CHUNK_CHARS < (segmentTextOf s).length → ch.lines = [s]) ∧
    List.Chain' blockBoundaryOk (chunkBySpeaker segs) := by
  cases segs with
  | nil =>
    refine ⟨rfl, ?_, ?_, ?_, List.chain'_nil⟩ <;> intro ch hch <;> cases hch
  | cons seg rest =>
    obtain ⟨c, rest2, heq, _, _, hflat, hgood, hchain⟩ :=
      chunkBySpeakerGo_spec rest (newChunkOf seg) (goodChunk_new seg)
    have heq2 : chunkBySpeaker (seg :: rest) = c :: rest2 := heq
    rw [heq2]
    refine ⟨?_, ?_, ?_, ?_, hchain⟩
    · rw [hflat]
      rfl
    · intro ch hch s hs
      exact (hgood ch hch).2.2.1 s hs
    · intro ch hch
      exact (hgood ch hch).2.2.2.1
    · intro ch hch
      exact (hgood ch hch).2.2.2.2

/-- A 1997-character transcript, making the formatted text
`"s: {transcript}"` exactly 2000 characters long. -/
def trDemoC6 : Str := List.replicate 1997 'x'

def segA6 : TranscriptSegment :=
  ⟨"a1".toList, 0, 1, trDemoC6, "s".toList⟩

def segB6 : TranscriptSegment :=
  ⟨"b1".toList, 1, 3, trDemoC6, "s".toList⟩

theorem segA6_text_length : (segmentTextOf segA6).length = 2000 := by
  rw [segmentTextOf]
  show ("s".toList ++ ':' :: ' ' :: trDemoC6).length = 2000
  rw [List.length_append, List.length_cons, List.length_cons, trDemoC6,
    List.length_replicate]
  rfl

theorem segB6_text_length : (segmentTextOf segB6).length = 2000 := by
  rw [segmentTextOf]
  show ("s".toList ++ ':' :: ' ' :: trDemoC6).length = 2000
  rw [List.length_append, List.length_cons, List.length_cons, trDemoC6,
    List.length_replicate]
  rfl

theorem chunkBySpeakerC6_eval :
    chunkBySpeaker [segA6, segB6] =
    [{ speakerLabel := "s".toList, lines := [segA6, segB6], startTime := 0,
       endTime := 3,
       text := segmentTextOf segA6 ++ '\n' :: segmentTextOf segB6 }] := by
  rw [chunkBySpeaker, chunkBySpeakerGo, if_neg, chunkBySpeakerGo]
  · rfl
  · rintro (h1 | h2)
    · exact h1 rfl
    · have e1 : (newChunkOf segA6).text.length = 2000 := segA6_text_length
      have e2 := segB6_text_length
      have hM : MAX_CHUNK_CHARS = 4000 := rfl
      omega

/-- Counterexample for **C6** as stated: two same-speaker segments with
2000-character formatted texts pass the budget test
(`2000 + 2000 ≤ 4000`) and are joined with a newline, so the single
two-segment block has 4001 > 4000 characters of text. -/
theorem chunkBySpeaker_budget_counterexample :
    ¬ (∀ ch ∈ chunkBySpeaker [segA6, segB6], 2 ≤ ch.lines.length →
        ch.text.length ≤ MAX_CHUNK_CHARS) := by
  intro h
  have hch := h _ (by rw [chunkBySpeakerC6_eval]; exact List.mem_cons_self _ _)
    (by decide)
  have hlen : (segmentTextOf segA6 ++ '\n' :: segmentTextOf segB6).length =
      4001 := by
    rw [List.length_append, List.length_cons, segA6_text_length,
      segB6_text_length]
  have hM : MAX_CHUNK_CHARS = 4000 := rfl
  rw [hlen] at hch
  omega

/-- Two short segments by different speakers, for the **C6** witness. -/
def segsDemoC6 : List TranscriptSegment :=
  [ ⟨"a1".toList, 0, 1, "hi".toList, "spk_0".toList⟩,
    ⟨"b1".toList, 1, 3, "yo".toList, "spk_1".toList⟩ ]

/-- Witness for **C6**: on a two-speaker input the blocks partition the
segments, the first block is speaker-homogeneous and within budget, and
the block boundaries are justified. -/
theorem chunkBySpeaker_spec_witness :
    ((chunkBySpeaker segsDemoC6).map TranscriptChunk.lines).flatten =
      segsDemoC6 ∧
    (∃ ch ∈ chunkBySpeaker segsDemoC6, ∃ s ∈ ch.lines,
      s.speaker_label = ch.speakerLabel ∧
      (2 ≤ ch.lines.length → ch.text.length ≤ MAX_CHUNK_CHARS + 1)) ∧
    List.Chain' blockBoundaryOk (chunkBySpeaker segsDemoC6) := by
  obtain ⟨hflat, hhom, hbud, _, hchain⟩ := chunkBySpeaker_spec segsDemoC6
  refine ⟨hflat, ?_, hchain⟩
  have hm : newChunkOf ⟨"a1".toList, 0, 1, "hi".toList, "spk_0".toList⟩ ∈
      chunkBySpeaker segsDemoC6 := by decide
  have hs : (⟨"a1".toList, 0, 1, "hi".toList, "spk_0".toList⟩ :
      TranscriptSegment) ∈
      (newChunkOf ⟨"a1".toList, 0, 1, "hi".toList, "spk_0".toList⟩).lines := by
    decide
  exact ⟨_, hm, _, hs, hhom _ hm _ hs, hbud _ hm⟩
